import Mathlib

set_option maxHeartbeats 1000000
set_option maxRecDepth 4000

/-! Shallow embedding of the actitopo-go package: the hardware-topology
element model and its JSON codec (element.go), the index-addressed tree and
its queries (the unnamed tree source file), and the Topology wrapper codec
(topology.go). Go machine integers are modelled as Nat/Int with explicit
wrapping where the code converts; fallible operations return Except or the
four-way Res outcome type. -/

deriving instance DecidableEq for Except

namespace Actitopo

/-- Lower-casing of a byte string, character by character (Go strings.ToLower
and bytes.ToLower; on the ASCII data this package handles the mappings
agree). Defined over the character list so that it evaluates by kernel
reduction. -/
def strToLower (s : String) : String := String.mk (s.data.map Char.toLower)

/-- Byte-string prefix test (Go bytes.HasPrefix), over the character list so
that it evaluates by kernel reduction. -/
def strHasPrefix (p s : String) : Bool := p.data.isPrefixOf s.data

/-- Model of a parsed JSON document: the generic values produced by Go's
encoding/json when unmarshalling into an empty interface (strings, numbers,
objects, arrays, booleans, null). Numbers are modelled as integers; the
package under study only encodes integral numbers, and the claims never
involve fractional documents. Objects keep their fields in document order. -/
inductive JSON where
  | str (s : String)
  | num (n : Int)
  | obj (fields : List (String × JSON))
  | arr (elems : List JSON)
  | boolean (b : Bool)
  | null

/-- Go: ProcessingKind (element.go). The Go type is a byte; only the named
constants are ever produced by this package, so the model is the closed
enumeration of those constants. -/
inductive ProcessingKind where
  | UnknownProcessingKind
  | Package
  | NUMANode
  | Core
  | Thread
deriving DecidableEq

/-- Go: ProcessingKind.String() (element.go:222). -/
def ProcessingKind.str : ProcessingKind → String
  | .Package => "Package"
  | .NUMANode => "NUMANode"
  | .Core => "Core"
  | .Thread => "Thread"
  | .UnknownProcessingKind => "UnknownProcessingKind"

/-- Go: ParseProcessingKind (element.go:239): case-insensitive match, with
both spellings for NUMA node; the error carries the original string. -/
def ParseProcessingKind (str : String) : Except String ProcessingKind :=
  match strToLower str with
  | "package" => .ok .Package
  | "numa_node" => .ok .NUMANode
  | "numanode" => .ok .NUMANode
  | "core" => .ok .Core
  | "thread" => .ok .Thread
  | _ => .error ("unknown processing kind: '" ++ str ++ "'")

/-- Go: CacheLevel (element.go); closed enumeration of the named constants. -/
inductive CacheLevel where
  | UnknownCacheLevel
  | L1
  | L2
  | L3
  | L4
  | L5
deriving DecidableEq

/-- Go: CacheLevel.String() (element.go:310); UnknownCacheLevel has byte
value 0, hence the formatted default arm. -/
def CacheLevel.str : CacheLevel → String
  | .L1 => "L1"
  | .L2 => "L2"
  | .L3 => "L3"
  | .L4 => "L4"
  | .L5 => "L5"
  | .UnknownCacheLevel => "Unknown cache level 0"

/-- Go: ParseCacheLevel (element.go:329): case-sensitive, exact tokens. -/
def ParseCacheLevel (level : String) : Except String CacheLevel :=
  match level with
  | "L1" => .ok .L1
  | "L2" => .ok .L2
  | "L3" => .ok .L3
  | "L4" => .ok .L4
  | "L5" => .ok .L5
  | _ => .error ("Unknown cache level '" ++ level ++ "'")

/-- Go: Processing (element.go:183); ID is a uint32. -/
structure Processing where
  Kind : ProcessingKind
  ID : Nat
deriving DecidableEq

/-- Go: CacheAttributes (element.go:360); Size uint64, Linesize uint32,
Associativity int32. -/
structure CacheAttributes where
  Size : Nat
  Linesize : Nat
  Associativity : Int
deriving DecidableEq

/-- Go: Cache (element.go:273); Attributes is a nullable pointer. -/
structure Cache where
  Level : CacheLevel
  LogicalIndex : Nat
  Attributes : Option CacheAttributes
deriving DecidableEq

/-- Go: Element (element.go:36): the tagged-union-via-nullable-fields pair of
pointers, so the illegal both-set state is representable, as in the source. -/
structure Element where
  Processing : Option Processing
  Cache : Option Cache
deriving DecidableEq

/-- Go: Element.IsRoot (element.go:47). -/
def Element.IsRoot (e : Element) : Bool :=
  e.Processing.isNone && e.Cache.isNone

/-- Go: Element.IsProcessing (element.go:53). -/
def Element.IsProcessing (e : Element) : Bool :=
  e.Cache.isNone && e.Processing.isSome

/-- Go: Element.IsCache (element.go:58). -/
def Element.IsCache (e : Element) : Bool :=
  e.Processing.isNone && e.Cache.isSome

/-- Go conversion uint32(x) of a decoded integral JSON number. -/
def uint32Of (n : Int) : Nat := (n % 4294967296).toNat

/-- Go conversion uint64(x) of a decoded integral JSON number. -/
def uint64Of (n : Int) : Nat := (n % 18446744073709551616).toNat

/-- Go conversion int32(x) of a decoded integral JSON number. -/
def int32Of (n : Int) : Int := (n + 2147483648) % 4294967296 - 2147483648

/-- Field lookup in a decoded JSON object: Go unmarshals an object into a
map, where a later duplicate key overwrites an earlier one, so the last
occurrence wins. -/
def lookupField (fields : List (String × JSON)) (key : String) : Option JSON :=
  (fields.reverse.find? (fun p => p.1 == key)).map (fun p => p.2)

/-- Go: the processing branch of Element.UnmarshalJSON (element.go:116-136),
applied to the value found under the "processing" key: the value must be an
object whose "kind" is a string and whose "id" is a number, the kind string
is parsed case-insensitively, and the id is converted to uint32. -/
def decodeProcessingContent (content : JSON) : Except String Element :=
  match content with
  | .obj pf =>
    match lookupField pf "kind", lookupField pf "id" with
    | some (.str kindStr), some (.num idN) =>
      match ParseProcessingKind kindStr with
      | .error e =>
        .error ("failed to unmarshal Processing: failed to unmarshal ProcessingKind: " ++ e)
      | .ok kind =>
        .ok { Processing := some { Kind := kind, ID := uint32Of idN }, Cache := none }
    | _, _ => .error "failed to unmarshal Processing"
  | _ => .error "failed to unmarshal Processing"

/-- Go: the cache branch of Element.UnmarshalJSON (element.go:137-169): the
value must be an object; "attrs" must be an object (checked first, with an
early return, as in the source); then "lvl" must be a string, "li" and the
three attribute fields numbers; the level is parsed case-sensitively and the
numbers are converted to their declared widths. -/
def decodeCacheContent (content : JSON) : Except String Element :=
  match content with
  | .obj cf =>
    match lookupField cf "attrs" with
    | some (.obj af) =>
      match lookupField cf "lvl", lookupField cf "li",
            lookupField af "size", lookupField af "line", lookupField af "ways" with
      | some (.str levelStr), some (.num liN),
        some (.num sizeN), some (.num lineN), some (.num waysN) =>
        match ParseCacheLevel levelStr with
        | .error e =>
          .error ("failed to unmarshal Cache: failed to unmarshal CacheLevel: " ++ e)
        | .ok cacheLevel =>
          .ok { Processing := none,
                Cache := some
                  { Level := cacheLevel,
                    LogicalIndex := uint32Of liN,
                    Attributes := some
                      { Size := uint64Of sizeN,
                        Linesize := uint32Of lineN,
                        Associativity := int32Of waysN } } }
      | _, _, _, _, _ => .error "failed to unmarshal Cache"
    | _ => .error "failed to unmarshal Cache"
  | _ => .error "failed to unmarshal Cache"

/-- Go: Element.UnmarshalJSON after the raw bytes have been unmarshalled into
a generic value (element.go:104-173): the value must be an object; the
"processing" key is consulted first, and only if it is absent the "cache"
key; neither key is a decode error. -/
def elementFromJSON (raw : JSON) : Except String Element :=
  match raw with
  | .obj root =>
    match lookupField root "processing" with
    | some content => decodeProcessingContent content
    | none =>
      match lookupField root "cache" with
      | some content => decodeCacheContent content
      | none => .error "failed to unmarshal Element"
  | _ => .error "failed to unmarshal Element"

/-- Whether the canonical text of a JSON value, lowered, starts with the nine
bytes of the token machine in quotes: this is Element.UnmarshalJSON's
byte-level root test (element.go:98) expressed on parsed values. The text of
a value starts with a quote exactly for strings, and an escaped string body
never contains a raw quote, so on escape-free text (as produced by the
encoder) the test holds exactly for the string machine, up to case. -/
def isMachineText : JSON → Bool
  | .str s => strToLower s == "machine"
  | _ => false

/-- Go: Element.UnmarshalJSON (element.go:96) at the JSON-value level: the
root test, then the generic decode of the remaining cases. -/
def Element.unmarshalValue (v : JSON) : Except String Element :=
  if isMachineText v then .ok { Processing := none, Cache := none }
  else elementFromJSON v

/-- Go: marshalling of a Processing value (struct tags kind, id);
ProcessingKind.MarshalJSON emits the lower-cased String() form. -/
def Processing.marshal (p : Processing) : JSON :=
  .obj [("kind", .str (strToLower p.Kind.str)), ("id", .num (p.ID : Int))]

/-- Go: marshalling of CacheAttributes (struct tags size, line, ways). -/
def CacheAttributes.marshal (a : CacheAttributes) : JSON :=
  .obj [("size", .num (a.Size : Int)), ("line", .num (a.Linesize : Int)),
        ("ways", .num a.Associativity)]

/-- Go: marshalling of a Cache value (struct tags lvl, li, attrs);
CacheLevel.MarshalJSON emits the exact String() form, and a nil Attributes
pointer marshals as null. -/
def Cache.marshal (c : Cache) : JSON :=
  .obj [("lvl", .str c.Level.str), ("li", .num (c.LogicalIndex : Int)),
        ("attrs", match c.Attributes with | none => .null | some a => a.marshal)]

/-- Go: Element.MarshalJSON (element.go:78-92) at the JSON-value level: the
root marshals as the bare string machine; a cache or processing element as a
one-key object; the both-set state fails. The four match arms correspond to
the IsRoot, IsCache, IsProcessing and default switch cases. -/
def Element.MarshalJSON (e : Element) : Except String JSON :=
  match e.Processing, e.Cache with
  | none, none => .ok (.str "machine")
  | none, some c => .ok (.obj [("cache", c.marshal)])
  | some p, none => .ok (.obj [("processing", p.marshal)])
  | some _, some _ => .error "Invalid Element"

/-- Go: TreeNode (tree source, line 27): an element pointer and the ordered
child NodeID list (json tags data and desc, the latter with omitempty). -/
structure TreeNode where
  Data : Option Element
  Children : List Nat
deriving DecidableEq

instance : Inhabited TreeNode := ⟨⟨none, []⟩⟩

/-- Go: Tree (tree source, line 37). -/
structure Tree where
  Nodes : List TreeNode
deriving DecidableEq

/-- Go: Topology (topology.go:26): a nullable pointer to a Tree. -/
structure Topology where
  Tree : Option Tree
deriving DecidableEq

/-- Outcome of a Go tree operation: a returned value, an error return, a
runtime fault (an out-of-range slice index or the explicit unreachable
branch), or an infinite loop. -/
inductive Res (α : Type) where
  | ok (a : α)
  | err (msg : String)
  | fatal
  | diverges
deriving DecidableEq

/-- The child list stored at index p (Go: t.Nodes[p].Children); out of range
it yields the zero TreeNode's empty list, which the valid-tree hypotheses of
the theorems below never exercise. -/
def childrenOf (ns : List TreeNode) (p : Nat) : List Nat :=
  (ns.getD p default).Children

/-- Go: Tree.Size (a nil tree degrades to 0). -/
def Tree.Size : Option Tree → Nat
  | none => 0
  | some t => t.Nodes.length

/-- Go: Tree.IsEmpty (a nil tree degrades to true). -/
def Tree.IsEmpty : Option Tree → Bool
  | none => true
  | some t => t.Nodes.length == 0

/-- Go: Tree.Root. -/
def Tree.Root : Option Tree → Res (Option Element)
  | none => .err "Tree is nil"
  | some t =>
    if t.Nodes.length = 0 then .err "Tree is empty"
    else .ok (t.Nodes.getD 0 default).Data

/-- Go: Tree.Get. -/
def Tree.Get (t : Option Tree) (id : Nat) : Res (Option Element) :=
  match t with
  | none => .err "Tree is nil"
  | some t =>
    if t.Nodes.length ≤ id then .err ("Invalid NodeID " ++ toString id)
    else .ok (t.Nodes.getD id default).Data

/-- Go: Tree.ImmediateDescendantIDs. -/
def Tree.ImmediateDescendantIDs (t : Option Tree) (id : Nat) : Res (List Nat) :=
  match t with
  | none => .err "Tree is nil"
  | some t =>
    if t.Nodes.length ≤ id then .err ("Invalid NodeID " ++ toString id)
    else .ok (childrenOf t.Nodes id)

/-- Go: Tree.ImmediateDescendants; indexing t.Nodes with an out-of-range
child id is a runtime fault. -/
def Tree.ImmediateDescendants (t : Option Tree) (id : Nat) : Res (List (Option Element)) :=
  match t with
  | none => .err "Tree is nil"
  | some t =>
    if t.Nodes.length ≤ id then .err ("Invalid NodeID " ++ toString id)
    else
      if (childrenOf t.Nodes id).all (fun c => c < t.Nodes.length) then
        .ok ((childrenOf t.Nodes id).map (fun c => (t.Nodes.getD c default).Data))
      else .fatal

/-- The stack loop of Tree.LeafDescendantIDs (tree source, lines 139-155),
collecting the ids of childless nodes. The list's head is the stack top;
pushing a node's children in order makes the last child the new top, as with
the Go slice-backed stack, so children are reversed onto the front. Fuel
bounds the number of iterations: exhaustion models the infinite loop that an
invariant-violating cyclic tree would cause, and an out-of-range index (Go
checks it when pushing, this model when popping) is a runtime fault. -/
def dfsLeaves (ns : List TreeNode) : Nat → List Nat → Res (List Nat)
  | _, [] => .ok []
  | 0, _ :: _ => .diverges
  | fuel+1, id :: rest =>
    if ns.length ≤ id then .fatal
    else
      if (childrenOf ns id).isEmpty then
        match dfsLeaves ns fuel rest with
        | .ok l => .ok (id :: l)
        | r => r
      else dfsLeaves ns fuel ((childrenOf ns id).reverse ++ rest)

/-- Go: Tree.LeafDescendantIDs. On a tree satisfying the invariants every
node of the queried subtree is pushed exactly once, so the loop runs at most
(number of nodes) iterations; that is the fuel supplied. -/
def Tree.LeafDescendantIDs (t : Option Tree) (id : Nat) : Res (List Nat) :=
  match t with
  | none => .err "Tree is nil"
  | some t =>
    if t.Nodes.length ≤ id then .err ("Invalid NodeID " ++ toString id)
    else dfsLeaves t.Nodes t.Nodes.length [id]

/-- Go: Tree.LeafDescendants: the identical traversal, collecting each
collected node's Data instead of its id. -/
def Tree.LeafDescendants (t : Option Tree) (id : Nat) : Res (List (Option Element)) :=
  match t with
  | none => .err "Tree is nil"
  | some t =>
    if t.Nodes.length ≤ id then .err ("Invalid NodeID " ++ toString id)
    else
      match dfsLeaves t.Nodes t.Nodes.length [id] with
      | .ok l => .ok (l.map (fun i => (t.Nodes.getD i default).Data))
      | .err e => .err e
      | .fatal => .fatal
      | .diverges => .diverges

/-- The scan shared by Tree.ParentID and Tree.Parent (tree source, lines
202-208 and 228-234): the first index, counting from acc, whose child list
contains id. -/
def scanParent (id : Nat) : List TreeNode → Nat → Option Nat
  | [], _ => none
  | tn :: rest, p =>
    if tn.Children.contains id then some p else scanParent id rest (p + 1)

/-- Go: Tree.ParentID; the never-found case is the unreachable branch. -/
def Tree.ParentID (t : Option Tree) (id : Nat) : Res Nat :=
  match t with
  | none => .err "Tree is nil"
  | some t =>
    if t.Nodes.length ≤ id then .err ("Invalid NodeID " ++ toString id)
    else if id = 0 then .err "Root element does not have a parent"
    else
      match scanParent id t.Nodes 0 with
      | some p => .ok p
      | none => .fatal

/-- Go: Tree.Parent: the same scan, returning the parent's Data. -/
def Tree.Parent (t : Option Tree) (id : Nat) : Res (Option Element) :=
  match t with
  | none => .err "Tree is nil"
  | some t =>
    if t.Nodes.length ≤ id then .err ("Invalid NodeID " ++ toString id)
    else if id = 0 then .err "Root element does not have a parent"
    else
      match scanParent id t.Nodes 0 with
      | some p => .ok (t.Nodes.getD p default).Data
      | none => .fatal

/-- Whether every child id listed anywhere in the tree is a valid position
of the length-n parent table: the Go table build of Tree.AncestorIDs and
Tree.Ancestors indexes the table through every listed child, so one listed
child at or beyond the node count makes the build fault with an
index-out-of-range panic before any climbing happens. -/
def tableWritesInRange (ns : List TreeNode) : Bool :=
  (List.range ns.length).all (fun p => (childrenOf ns p).all (fun c => c < ns.length))

/-- The parent table of Tree.AncestorIDs and Tree.Ancestors (tree source,
lines 249-254): a length-n table, zero-initialised, where each node index p
is written at every position listed among p's children. The writes use
List.set, which is only reached by the operations below once
tableWritesInRange has ruled the fault out, so no write is ever dropped. -/
def buildTable (ns : List TreeNode) : List Nat :=
  (List.range ns.length).foldl
    (fun tbl p => (childrenOf ns p).foldl (fun tb c => tb.set c p) tbl)
    (List.replicate ns.length 0)

/-- The climb of Tree.AncestorIDs (lines 256-259): starting from id, append
the table entry of the current id and move to it, until the root. Fuel
exhaustion models the infinite loop a cyclic parent table would cause; on a
valid tree the chain is shorter than the node count. -/
def ancWalk (tbl : List Nat) : Nat → Nat → Option (List Nat)
  | _, 0 => some []
  | 0, _+1 => none
  | fuel+1, i+1 =>
    match ancWalk tbl fuel (tbl.getD (i + 1) 0) with
    | some l => some (tbl.getD (i + 1) 0 :: l)
    | none => none

/-- Go: Tree.AncestorIDs: nil and bounds errors, then the table build —
which faults on an out-of-range listed child — then the climb. -/
def Tree.AncestorIDs (t : Option Tree) (id : Nat) : Res (List Nat) :=
  match t with
  | none => .err "Tree is nil"
  | some t =>
    if t.Nodes.length ≤ id then .err ("Invalid NodeID " ++ toString id)
    else if tableWritesInRange t.Nodes then
      match ancWalk (buildTable t.Nodes) t.Nodes.length id with
      | some l => .ok l
      | none => .diverges
    else .fatal

/-- Go: Tree.Ancestors: the same guard, table and climb, collecting each
appended ancestor's Data. -/
def Tree.Ancestors (t : Option Tree) (id : Nat) : Res (List (Option Element)) :=
  match t with
  | none => .err "Tree is nil"
  | some t =>
    if t.Nodes.length ≤ id then .err ("Invalid NodeID " ++ toString id)
    else if tableWritesInRange t.Nodes then
      match ancWalk (buildTable t.Nodes) t.Nodes.length id with
      | some l => .ok (l.map (fun p => (t.Nodes.getD p default).Data))
      | none => .diverges
    else .fatal

/-- Go: decoding a JSON value into a NodeID (uint32): encoding/json rejects
numbers that are negative or too large for the target integer type. -/
def decodeNodeID (v : JSON) : Except String Nat :=
  match v with
  | .num n =>
    if 0 ≤ n ∧ n < 4294967296 then .ok n.toNat
    else .error "json: cannot unmarshal number into NodeID"
  | _ => .error "json: cannot unmarshal value into NodeID"

/-- Go: decoding the desc field of a TreeNode: an absent or null field leaves
the nil slice, an array decodes element-wise. -/
def decodeChildren : Option JSON → Except String (List Nat)
  | none => .ok []
  | some .null => .ok []
  | some (.arr vs) => vs.mapM decodeNodeID
  | some v =>
    match v with
    | _ => .error "json: cannot unmarshal value into children"

/-- Go: decoding the data field of a TreeNode: an absent or null field
leaves the nil element pointer, otherwise Element.UnmarshalJSON runs on the
field's value. -/
def decodeData : Option JSON → Except String (Option Element)
  | none => .ok none
  | some .null => .ok none
  | some dv => (Element.unmarshalValue dv).map some

/-- Go: decoding a TreeNode object; null into the struct itself is a no-op
leaving the zero value. -/
def decodeTreeNode (v : JSON) : Except String TreeNode :=
  match v with
  | .null => .ok { Data := none, Children := [] }
  | .obj fields =>
    match decodeData (lookupField fields "data") with
    | .error e => .error e
    | .ok d =>
      match decodeChildren (lookupField fields "desc") with
      | .error e => .error e
      | .ok cs => .ok { Data := d, Children := cs }
  | _ => .error "json: cannot unmarshal value into TreeNode"

/-- Go: decoding a Tree object: an absent or null nodes field leaves the nil
slice; null into the struct is a no-op. -/
def decodeTree (v : JSON) : Except String Tree :=
  match v with
  | .null => .ok { Nodes := [] }
  | .obj fields =>
    match lookupField fields "nodes" with
    | none => .ok { Nodes := [] }
    | some .null => .ok { Nodes := [] }
    | some (.arr vs) => (vs.mapM decodeTreeNode).map Tree.mk
    | some _ => .error "json: cannot unmarshal value into []TreeNode"
  | _ => .error "json: cannot unmarshal value into Tree"

/-- Go: Topology.UnmarshalJSON (topology.go:117) at the JSON-value level:
json.Unmarshal into the embedded pointer sets it to nil on null and
otherwise allocates and decodes a Tree. -/
def Topology.UnmarshalJSON (v : JSON) : Except String Topology :=
  match v with
  | .null => .ok { Tree := none }
  | _ => (decodeTree v).map (fun tr => { Tree := some tr })

/-- Go: marshalling a child list as a JSON array of numbers. -/
def encodeChildren (cs : List Nat) : JSON :=
  .arr (cs.map (fun c => .num (Int.ofNat c)))

/-- Go: marshalling one TreeNode: a nil Data pointer emits null, otherwise
Element.MarshalJSON; desc carries omitempty, so an empty child list is
omitted. -/
def encodeTreeNode (tn : TreeNode) : Except String JSON :=
  match (match tn.Data with
         | none => Except.ok JSON.null
         | some e => e.MarshalJSON) with
  | .error e => .error e
  | .ok dj =>
    .ok (.obj (("data", dj) ::
      (if tn.Children.isEmpty then [] else [("desc", encodeChildren tn.Children)])))

/-- Go: marshalling the Tree struct (field nodes, no omitempty). The model
does not distinguish Go's nil slice (which marshals as null) from an empty
one (which marshals as an empty array); both re-decode to zero nodes. -/
def encodeTree (tr : Tree) : Except String JSON :=
  (tr.Nodes.mapM encodeTreeNode).map (fun js => .obj [("nodes", .arr js)])

/-- Go: Topology.MarshalJSON (topology.go:111): a nil embedded Tree pointer
marshals as null. -/
def Topology.MarshalJSON (t : Topology) : Except String JSON :=
  match t.Tree with
  | none => .ok .null
  | some tr => encodeTree tr

/-- Whitespace characters of the JSON grammar. -/
def isJsonWs (c : Char) : Bool :=
  c == ' ' || c == '\t' || c == '\n' || c == '\r'

/-- Drop leading JSON whitespace. -/
def skipWs : List Char → List Char
  | [] => []
  | c :: cs => if isJsonWs c then skipWs cs else c :: cs

/-- Single-character JSON escapes, each given as its target code point. -/
def escCode : Char → Option Nat
  | 'b' => some 8
  | 't' => some 9
  | 'n' => some 10
  | 'f' => some 12
  | 'r' => some 13
  | '"' => some 34
  | '/' => some 47
  | '\\' => some 92
  | _ => none

/-- Hexadecimal digit value, by code point range. -/
def hexVal (c : Char) : Option Nat :=
  let n := c.toNat
  if 48 ≤ n ∧ n ≤ 57 then some (n - 48)
  else if 97 ≤ n ∧ n ≤ 102 then some (n - 87)
  else if 65 ≤ n ∧ n ≤ 70 then some (n - 55)
  else none

/-- Parse the body of a JSON string after its opening quote, returning the
decoded characters and the input after the closing quote. -/
def parseStringBody : Nat → List Char → Option (List Char × List Char)
  | _, [] => none
  | 0, _ :: _ => none
  | fuel+1, c :: cs =>
    if c == '"' then some ([], cs)
    else if c == '\\' then
      match cs with
      | [] => none
      | e :: cs' =>
        if e == 'u' then
          match cs' with
          | h1 :: h2 :: h3 :: h4 :: cs'' =>
            match hexVal h1, hexVal h2, hexVal h3, hexVal h4 with
            | some a, some b, some c2, some d =>
              match parseStringBody fuel cs'' with
              | some (s, r) =>
                some (Char.ofNat (((a * 16 + b) * 16 + c2) * 16 + d) :: s, r)
              | none => none
            | _, _, _, _ => none
          | _ => none
        else
          match escCode e with
          | some k =>
            match parseStringBody fuel cs' with
            | some (s, r) => some (Char.ofNat k :: s, r)
            | none => none
          | none => none
    else
      match parseStringBody fuel cs with
      | some (s, r) => some (c :: s, r)
      | none => none

/-- Decimal digits to a natural number. -/
def digitsToNat (ds : List Char) : Nat :=
  ds.foldl (fun a c => a * 10 + (c.toNat - 48)) 0

/-- Parse a JSON number. The model only admits integral numbers (no
fraction or exponent); the package under study never encodes any other. -/
def parseNumber (cs : List Char) : Option (JSON × List Char) :=
  let p := match cs with
    | '-' :: rest => (true, rest)
    | _ => (false, cs)
  let q := p.2.span (fun c => c.isDigit)
  match q.1 with
  | [] => none
  | ds =>
    match q.2 with
    | '.' :: _ => none
    | 'e' :: _ => none
    | 'E' :: _ => none
    | rest => some (.num (if p.1 then -(digitsToNat ds : Int) else (digitsToNat ds : Int)), rest)

mutual

/-- Recursive-descent parse of one JSON value, modelling the syntax layer of
Go's json.Unmarshal. Fuel bounds the descent; at least one input character
is consumed between recursive calls, so the input length suffices. -/
def parseValue : Nat → List Char → Option (JSON × List Char)
  | 0, _ => none
  | fuel+1, cs =>
    match skipWs cs with
    | [] => none
    | c :: rest =>
      if c == '"' then
        match parseStringBody (rest.length + 1) rest with
        | some (s, r) => some (.str (String.mk s), r)
        | none => none
      else if c == '{' then
        match skipWs rest with
        | '}' :: r => some (.obj [], r)
        | _ =>
          match parseObjRest fuel rest with
          | some (ms, r) => some (.obj ms, r)
          | none => none
      else if c == '[' then
        match skipWs rest with
        | ']' :: r => some (.arr [], r)
        | _ =>
          match parseArrRest fuel rest with
          | some (vs, r) => some (.arr vs, r)
          | none => none
      else if c == 't' then
        match rest with
        | 'r' :: 'u' :: 'e' :: r => some (.boolean true, r)
        | _ => none
      else if c == 'f' then
        match rest with
        | 'a' :: 'l' :: 's' :: 'e' :: r => some (.boolean false, r)
        | _ => none
      else if c == 'n' then
        match rest with
        | 'u' :: 'l' :: 'l' :: r => some (.null, r)
        | _ => none
      else if c == '-' || c.isDigit then parseNumber (c :: rest)
      else none

/-- Parse the members of a non-empty JSON object after its opening brace. -/
def parseObjRest : Nat → List Char → Option (List (String × JSON) × List Char)
  | 0, _ => none
  | fuel+1, cs =>
    match skipWs cs with
    | '"' :: rest =>
      match parseStringBody (rest.length + 1) rest with
      | some (k, r1) =>
        match skipWs r1 with
        | ':' :: r2 =>
          match parseValue fuel r2 with
          | some (v, r3) =>
            match skipWs r3 with
            | ',' :: r4 =>
              match parseObjRest fuel r4 with
              | some (ms, r5) => some ((String.mk k, v) :: ms, r5)
              | none => none
            | '}' :: r4 => some ([(String.mk k, v)], r4)
            | _ => none
          | none => none
        | _ => none
      | none => none
    | _ => none

/-- Parse the elements of a non-empty JSON array after its opening bracket. -/
def parseArrRest : Nat → List Char → Option (List JSON × List Char)
  | 0, _ => none
  | fuel+1, cs =>
    match parseValue fuel cs with
    | some (v, r1) =>
      match skipWs r1 with
      | ',' :: r2 =>
        match parseArrRest fuel r2 with
        | some (vs, r3) => some (v :: vs, r3)
        | none => none
      | ']' :: r2 => some ([v], r2)
      | _ => none
    | none => none

end

/-- Model of Go's json.Unmarshal of a byte string into a generic value: one
JSON value, possibly surrounded by whitespace, nothing after it. -/
def jsonUnmarshal (s : String) : Option JSON :=
  match parseValue (s.length + 1) s.data with
  | some (v, rest) => if (skipWs rest).isEmpty then some v else none
  | none => none

/-- Go: Element.UnmarshalJSON (element.go:96-174) at the byte level: first
the case-insensitive root test, comparing the lowered raw input against the
nine-byte pattern machine in quotes (closing quote included); then
json.Unmarshal into a generic value followed by the structural decode. The
model collapses Go's various syntax-error messages into one. -/
def Element.UnmarshalJSON (data : String) : Except String Element :=
  if strHasPrefix "\"machine\"" (strToLower data) then
    .ok { Processing := none, Cache := none }
  else
    match jsonUnmarshal data with
    | none => .error "failed to unmarshal JSON value"
    | some raw => elementFromJSON raw

/-- A depth assignment witnessing that the child relation is rooted and
acyclic: node 0 has depth 0 and every listed child is one deeper than the
node listing it. Bounded quantifiers run over List.range so that concrete
instances are decidable. -/
def IsDepthFn (ns : List TreeNode) (D : Nat → Nat) : Prop :=
  D 0 = 0 ∧ ∀ p ∈ List.range ns.length, ∀ c ∈ childrenOf ns p, D c = D p + 1

/-- The structural invariants of a valid tree (spec section 3): non-empty,
children in range, the root listed as nobody's child, child lists free of
duplicates, every non-root listed by exactly one parent, and the child
relation rooted and acyclic, witnessed by a depth assignment. -/
structure TreeValid (ns : List TreeNode) : Prop where
  nonempty : ns ≠ []
  childBound : ∀ p ∈ List.range ns.length, ∀ c ∈ childrenOf ns p, c < ns.length
  rootNotChild : ∀ p ∈ List.range ns.length, 0 ∉ childrenOf ns p
  childNodup : ∀ p ∈ List.range ns.length, (childrenOf ns p).Nodup
  parentEx : ∀ c ∈ List.range ns.length, 0 < c → ∃ p ∈ List.range ns.length, c ∈ childrenOf ns p
  parentUniq : ∀ p ∈ List.range ns.length, ∀ q ∈ List.range ns.length,
    ∀ c ∈ childrenOf ns p, c ∈ childrenOf ns q → p = q
  depthEx : ∃ D, IsDepthFn ns D

/-- Membership of x in the subtree rooted at r, following the child lists. -/
inductive InSubtree (ns : List TreeNode) (r : Nat) : Nat → Prop where
  | refl : InSubtree ns r r
  | step (p c : Nat) : InSubtree ns r p → c ∈ childrenOf ns p → InSubtree ns r c

/-- The shapes an Element can have after a successful decode: the root, a
processing element with a recognised kind and a uint32 id, or a cache
element with a recognised level, attributes present, and all numeric fields
inside their declared widths. -/
def ValidElement (e : Element) : Prop :=
  e = { Processing := none, Cache := none } ∨
  (∃ k i, e = { Processing := some { Kind := k, ID := i }, Cache := none } ∧
    k ≠ ProcessingKind.UnknownProcessingKind ∧ i < 4294967296) ∨
  (∃ lv li sz ln ws,
    e = { Processing := none,
          Cache := some { Level := lv, LogicalIndex := li,
                          Attributes := some { Size := sz, Linesize := ln,
                                               Associativity := ws } } } ∧
    lv ≠ CacheLevel.UnknownCacheLevel ∧ li < 4294967296 ∧
    sz < 18446744073709551616 ∧ ln < 4294967296 ∧
    -2147483648 ≤ ws ∧ ws < 2147483648)

/-- The shape a TreeNode has after a successful decode: a valid element (or
a nil pointer) and child ids inside the NodeID width. -/
def ValidTreeNode (tn : TreeNode) : Prop :=
  (∀ e, tn.Data = some e → ValidElement e) ∧ ∀ c ∈ tn.Children, c < 4294967296

/-! Claim theorems: element decoding (C2, C3) and enumeration parsing (C7). -/

/-- C2, as stated, is false in one particular: the root test's nine-byte
pattern includes the closing quote, so the token machine_extra does not pass
it; the input then parses as a JSON string, which is not an object, and
Element decoding fails instead of producing Root. -/
theorem C2_counterexample :
    Element.UnmarshalJSON "\"machine_extra\"" = .error "failed to unmarshal Element" := by
  decide

/-- C2 amended: Element decoding recognises the root by a case-insensitive
prefix match against the quoted token machine including its closing quote:
every input byte string whose lowering starts with those nine bytes decodes
as Root (both tag pointers nil); other casings such as MACHINE in quotes
decode as Root, but the malformed token machine_extra does not. -/
theorem C2_amended (data : String)
    (h : strHasPrefix "\"machine\"" (strToLower data) = true) :
    Element.UnmarshalJSON data = .ok { Processing := none, Cache := none } := by
  unfold Element.UnmarshalJSON
  simp [h]

theorem C2_witness :
    (strHasPrefix "\"machine\"" (strToLower "\"MACHINE\"") = true) ∧
    Element.UnmarshalJSON "\"MACHINE\"" = .ok { Processing := none, Cache := none } :=
  ⟨by decide, C2_amended "\"MACHINE\"" (by decide)⟩

/-- C3, as stated, is false for the both-keys case: the decoder consults the
processing key first and never looks at the cache key when it is present, so
an object carrying both keys decodes through the processing branch (here
successfully, as a Processing element) instead of failing. -/
theorem C3_counterexample :
    elementFromJSON (.obj [("processing", .obj [("kind", .str "core"), ("id", .num 0)]),
                           ("cache", .num 1)])
      = .ok { Processing := some { Kind := .Core, ID := 0 }, Cache := none } := by
  decide

/-- C3 amended: for every non-root input object, decoding with neither the
processing nor the cache key present fails with a decode error; an object
containing the processing key (whether or not cache is also present) is
decided entirely by the processing branch, so both keys together do not
fail but decode as the processing variant. -/
theorem C3_amended (root : List (String × JSON)) :
    (lookupField root "processing" = none → lookupField root "cache" = none →
      elementFromJSON (.obj root) = .error "failed to unmarshal Element") ∧
    (∀ content, lookupField root "processing" = some content →
      elementFromJSON (.obj root) = decodeProcessingContent content) := by
  constructor
  · intro h1 h2
    simp [elementFromJSON, h1, h2]
  · intro content h
    simp [elementFromJSON, h]

theorem C3_witness :
    elementFromJSON (.obj []) = .error "failed to unmarshal Element" ∧
    elementFromJSON (.obj [("processing", .obj [("kind", .str "thread"), ("id", .num 2)]),
                           ("cache", .null)])
      = decodeProcessingContent (.obj [("kind", .str "thread"), ("id", .num 2)]) :=
  ⟨(C3_amended []).1 rfl rfl,
   (C3_amended [("processing", .obj [("kind", .str "thread"), ("id", .num 2)]),
                ("cache", .null)]).2
     (.obj [("kind", .str "thread"), ("id", .num 2)]) rfl⟩

/-- C7: ParseProcessingKind is case-insensitive and accepts both NUMA-node
spellings, so every casing of numa_node or numanode yields NUMANode, while
an unrecognised string fails; ParseCacheLevel is case-sensitive, accepting
the exact token L1 but rejecting the lower-case l1. -/
theorem C7_parse_case_rules :
    (∀ s : String, strToLower s = "numa_node" ∨ strToLower s = "numanode" →
      ParseProcessingKind s = .ok .NUMANode) ∧
    ParseProcessingKind "bogus" = .error "unknown processing kind: 'bogus'" ∧
    ParseCacheLevel "L1" = .ok .L1 ∧
    ParseCacheLevel "l1" = .error "Unknown cache level 'l1'" := by
  refine ⟨?_, by decide, by decide, by decide⟩
  intro s h
  unfold ParseProcessingKind
  rcases h with h | h <;> rw [h] <;> rfl

theorem C7_witness :
    (strToLower "NUMA_NODE" = "numa_node" ∨ strToLower "NUMA_NODE" = "numanode") ∧
    ParseProcessingKind "NUMA_NODE" = .ok .NUMANode ∧
    ParseProcessingKind "numanode" = .ok .NUMANode :=
  ⟨by decide,
   C7_parse_case_rules.1 "NUMA_NODE" (by decide),
   C7_parse_case_rules.1 "numanode" (by decide)⟩

/-! Claim theorems: bounds checking (C4), the root's parent (C8) and the
root's ancestors (C10). -/

/-- C4, as stated, is false for zero-node trees: on a non-nil tree with no
nodes, a bounds-checked query falls through the nil check and fails the
bounds check, producing the InvalidNodeID error, which is distinct from
both of the nil-or-empty-tree error messages. -/
theorem C4_counterexample :
    Tree.Get (some (Tree.mk [])) 0 = .err "Invalid NodeID 0" ∧
    Tree.Get (some (Tree.mk [])) 0 ≠ .err "Tree is nil" ∧
    Tree.Get (some (Tree.mk [])) 0 ≠ .err "Tree is empty" := by
  decide

/-- C4 amended: every bounds-checked query (Get, ImmediateDescendantIDs,
ImmediateDescendants, LeafDescendantIDs, LeafDescendants, ParentID, Parent,
AncestorIDs, Ancestors) called with id at or beyond the node count — which
on a zero-node tree is every id — fails with the InvalidNodeID error; called
on a nil tree it fails with the distinct nil-tree error; and Size and
IsEmpty on a nil or zero-node tree return 0 and true without erroring. -/
theorem C4_amended (t : Tree) (id : Nat) (h : t.Nodes.length ≤ id) :
    Tree.Size none = 0 ∧
    Tree.IsEmpty none = true ∧
    Tree.Size (some (Tree.mk [])) = 0 ∧
    Tree.IsEmpty (some (Tree.mk [])) = true ∧
    Tree.Get (none : Option Tree) id = .err "Tree is nil" ∧
    Tree.ImmediateDescendantIDs none id = .err "Tree is nil" ∧
    Tree.ImmediateDescendants none id = .err "Tree is nil" ∧
    Tree.LeafDescendantIDs none id = .err "Tree is nil" ∧
    Tree.LeafDescendants none id = .err "Tree is nil" ∧
    Tree.ParentID none id = .err "Tree is nil" ∧
    Tree.Parent none id = .err "Tree is nil" ∧
    Tree.AncestorIDs none id = .err "Tree is nil" ∧
    Tree.Ancestors none id = .err "Tree is nil" ∧
    Tree.Get (some t) id = .err ("Invalid NodeID " ++ toString id) ∧
    Tree.ImmediateDescendantIDs (some t) id = .err ("Invalid NodeID " ++ toString id) ∧
    Tree.ImmediateDescendants (some t) id = .err ("Invalid NodeID " ++ toString id) ∧
    Tree.LeafDescendantIDs (some t) id = .err ("Invalid NodeID " ++ toString id) ∧
    Tree.LeafDescendants (some t) id = .err ("Invalid NodeID " ++ toString id) ∧
    Tree.ParentID (some t) id = .err ("Invalid NodeID " ++ toString id) ∧
    Tree.Parent (some t) id = .err ("Invalid NodeID " ++ toString id) ∧
    Tree.AncestorIDs (some t) id = .err ("Invalid NodeID " ++ toString id) ∧
    Tree.Ancestors (some t) id = .err ("Invalid NodeID " ++ toString id) := by
  refine ⟨rfl, rfl, rfl, rfl, rfl, rfl, rfl, rfl, rfl, rfl, rfl, rfl, rfl,
          ?_, ?_, ?_, ?_, ?_, ?_, ?_, ?_, ?_⟩ <;>
    simp [Tree.Get, Tree.ImmediateDescendantIDs, Tree.ImmediateDescendants,
          Tree.LeafDescendantIDs, Tree.LeafDescendants, Tree.ParentID,
          Tree.Parent, Tree.AncestorIDs, Tree.Ancestors, h]

theorem C4_witness :
    (Tree.mk []).Nodes.length ≤ 0 ∧
    Tree.Get (some (Tree.mk [])) 0 = .err ("Invalid NodeID " ++ toString 0) ∧
    Tree.LeafDescendantIDs (some (Tree.mk [])) 0 = .err ("Invalid NodeID " ++ toString 0) :=
  ⟨by decide,
   (C4_amended (Tree.mk []) 0 (by decide)).2.2.2.2.2.2.2.2.2.2.2.2.2.1,
   (C4_amended (Tree.mk []) 0 (by decide)).2.2.2.2.2.2.2.2.2.2.2.2.2.2.2.2.1⟩

/-- C8: on every non-nil tree with at least one node, ParentID and Parent
applied to NodeID 0 deterministically fail with the no-parent error. -/
theorem C8_root_has_no_parent (t : Tree) (h : t.Nodes ≠ []) :
    Tree.ParentID (some t) 0 = .err "Root element does not have a parent" ∧
    Tree.Parent (some t) 0 = .err "Root element does not have a parent" := by
  have hl : ¬ t.Nodes.length ≤ 0 := by
    have := List.length_pos.mpr h
    omega
  constructor <;> simp [Tree.ParentID, Tree.Parent, hl]

theorem C8_witness :
    (Tree.mk [⟨none, []⟩]).Nodes ≠ [] ∧
    Tree.ParentID (some (Tree.mk [⟨none, []⟩])) 0
      = .err "Root element does not have a parent" ∧
    Tree.Parent (some (Tree.mk [⟨none, []⟩])) 0
      = .err "Root element does not have a parent" :=
  ⟨by decide,
   (C8_root_has_no_parent (Tree.mk [⟨none, []⟩]) (by decide)).1,
   (C8_root_has_no_parent (Tree.mk [⟨none, []⟩]) (by decide)).2⟩

/-- C10, as stated, is false: the parent table is built before the climb
and Go indexes the table through every listed child, so a non-nil one-node
tree listing the out-of-range child 5 faults in the build — AncestorIDs(0)
and Ancestors(0) there end in a runtime fault, not in an empty list. -/
theorem C10_counterexample :
    (Tree.mk [⟨none, [5]⟩]).Nodes ≠ [] ∧
    Tree.AncestorIDs (some (Tree.mk [⟨none, [5]⟩])) 0 = .fatal ∧
    Tree.Ancestors (some (Tree.mk [⟨none, [5]⟩])) 0 = .fatal ∧
    Tree.AncestorIDs (some (Tree.mk [⟨none, [5]⟩])) 0 ≠ .ok [] := by
  decide

/-- C10 amended: on every non-nil tree with at least one node all of whose
listed children are within the node count (so the table build cannot
fault), AncestorIDs and Ancestors applied to NodeID 0 succeed with the
empty list — the climb exits immediately at the root, unlike the ParentID
and Parent queries which fail there. -/
theorem C10_amended (t : Tree) (h : t.Nodes ≠ [])
    (hb : tableWritesInRange t.Nodes = true) :
    Tree.AncestorIDs (some t) 0 = .ok [] ∧
    Tree.Ancestors (some t) 0 = .ok [] := by
  have hl : ¬ t.Nodes.length ≤ 0 := by
    have := List.length_pos.mpr h
    omega
  have hw : ∀ fuel, ancWalk (buildTable t.Nodes) fuel 0 = some [] := by
    intro fuel
    cases fuel <;> rfl
  constructor <;> simp [Tree.AncestorIDs, Tree.Ancestors, hl, hb, hw]

theorem C10_witness :
    ((Tree.mk [⟨none, [1]⟩, ⟨none, []⟩]).Nodes ≠ [] ∧
     tableWritesInRange (Tree.mk [⟨none, [1]⟩, ⟨none, []⟩]).Nodes = true) ∧
    (Tree.AncestorIDs (some (Tree.mk [⟨none, [1]⟩, ⟨none, []⟩])) 0 = .ok [] ∧
     Tree.Ancestors (some (Tree.mk [⟨none, [1]⟩, ⟨none, []⟩])) 0 = .ok []) :=
  ⟨⟨by decide, by decide⟩,
   C10_amended (Tree.mk [⟨none, [1]⟩, ⟨none, []⟩]) (by decide) (by decide)⟩

/-! The parent scan (C9): under the unique-parent invariant the scan always
finds the parent of an in-bounds non-root id, so the unreachable branch of
ParentID and Parent is never taken. -/

/-- A successful scan result is a real occurrence: the returned index is the
start accumulator plus an in-range offset whose child list contains id. -/
theorem scanParent_some (id : Nat) :
    ∀ (l : List TreeNode) (s p : Nat), scanParent id l s = some p →
      ∃ i, i < l.length ∧ p = s + i ∧ id ∈ (l.getD i default).Children := by
  intro l
  induction l with
  | nil =>
    intro s p h
    simp [scanParent] at h
  | cons tn rest ih =>
    intro s p h
    unfold scanParent at h
    by_cases hc : tn.Children.contains id
    · rw [if_pos hc] at h
      have hsp : s = p := by injection h
      subst hsp
      exact ⟨0, by simp, by omega, by simpa using hc⟩
    · rw [if_neg hc] at h
      obtain ⟨i, hi, hp, hm⟩ := ih (s + 1) p h
      exact ⟨i + 1, by simpa using hi, by omega, by simpa using hm⟩

/-- If some in-range index's child list contains id, the scan succeeds. -/
theorem scanParent_finds (id : Nat) :
    ∀ (l : List TreeNode) (s : Nat),
      (∃ i, i < l.length ∧ id ∈ (l.getD i default).Children) →
      (scanParent id l s).isSome = true := by
  intro l
  induction l with
  | nil =>
    intro s h
    obtain ⟨i, hi, _⟩ := h
    simp at hi
  | cons tn rest ih =>
    intro s h
    unfold scanParent
    by_cases hc : tn.Children.contains id
    · rw [if_pos hc]
      rfl
    · rw [if_neg hc]
      apply ih
      obtain ⟨i, hi, hm⟩ := h
      cases i with
      | zero =>
        exact absurd (by simpa using hm) (by simpa using hc)
      | succ j =>
        exact ⟨j, by simpa using hi, by simpa using hm⟩

/-- C9: under the unique-parent invariant (id occurs in some in-range node's
child list, and in only one), for every NodeID id with 0 < id < node count,
ParentID and Parent never reach their unreachable branch: they return the
unique node (respectively its element) whose child list contains id. -/
theorem C9_parent_scan_safe (t : Tree) (id : Nat)
    (hpos : 0 < id) (hlt : id < t.Nodes.length)
    (hex : ∃ p, p < t.Nodes.length ∧ id ∈ childrenOf t.Nodes p)
    (huniq : ∀ p, p < t.Nodes.length → ∀ q, q < t.Nodes.length →
      id ∈ childrenOf t.Nodes p → id ∈ childrenOf t.Nodes q → p = q) :
    ∃ p, p < t.Nodes.length ∧ id ∈ childrenOf t.Nodes p ∧
      Tree.ParentID (some t) id = .ok p ∧
      Tree.Parent (some t) id = .ok (t.Nodes.getD p default).Data ∧
      ∀ q, q < t.Nodes.length → id ∈ childrenOf t.Nodes q → q = p := by
  have hsome : (scanParent id t.Nodes 0).isSome = true := by
    apply scanParent_finds
    obtain ⟨p, hp, hm⟩ := hex
    exact ⟨p, hp, hm⟩
  obtain ⟨p, hp⟩ := Option.isSome_iff_exists.mp hsome
  obtain ⟨i, hi, hpi, hm⟩ := scanParent_some id t.Nodes 0 p hp
  have hpi' : p = i := by omega
  subst hpi'
  have h1 : ¬ t.Nodes.length ≤ id := by omega
  have h2 : ¬ id = 0 := by omega
  refine ⟨p, hi, hm, ?_, ?_, ?_⟩
  · simp [Tree.ParentID, h1, h2, hp]
  · simp [Tree.Parent, h1, h2, hp]
  · intro q hq hmq
    exact huniq q hq p hi hmq hm

theorem C9_witness :
    (0 < 1 ∧ 1 < (Tree.mk [⟨none, [1, 2]⟩, ⟨none, []⟩, ⟨none, []⟩]).Nodes.length) ∧
    (∃ p, p < (Tree.mk [⟨none, [1, 2]⟩, ⟨none, []⟩, ⟨none, []⟩]).Nodes.length ∧
      1 ∈ childrenOf (Tree.mk [⟨none, [1, 2]⟩, ⟨none, []⟩, ⟨none, []⟩]).Nodes p ∧
      Tree.ParentID (some (Tree.mk [⟨none, [1, 2]⟩, ⟨none, []⟩, ⟨none, []⟩])) 1 = .ok p ∧
      Tree.Parent (some (Tree.mk [⟨none, [1, 2]⟩, ⟨none, []⟩, ⟨none, []⟩])) 1
        = .ok ((Tree.mk [⟨none, [1, 2]⟩, ⟨none, []⟩, ⟨none, []⟩]).Nodes.getD p default).Data ∧
      ∀ q, q < (Tree.mk [⟨none, [1, 2]⟩, ⟨none, []⟩, ⟨none, []⟩]).Nodes.length →
        1 ∈ childrenOf (Tree.mk [⟨none, [1, 2]⟩, ⟨none, []⟩, ⟨none, []⟩]).Nodes q → q = p) :=
  ⟨⟨by decide, by decide⟩,
   C9_parent_scan_safe (Tree.mk [⟨none, [1, 2]⟩, ⟨none, []⟩, ⟨none, []⟩]) 1
     (by decide) (by decide) ⟨0, by decide, by decide⟩
     (by
       intro p hp q hq h1 h2
       have hp3 : p < 3 := by simpa using hp
       have hq3 : q < 3 := by simpa using hq
       interval_cases p <;> interval_cases q <;> revert h1 h2 <;> decide)⟩

/-! The parent table and the ancestor climb (C5). -/

/-- Writing one value at distinct positions preserves the table length. -/
theorem foldl_set_length (p : Nat) :
    ∀ (cs : List Nat) (tbl : List Nat),
      (cs.foldl (fun tb c => tb.set c p) tbl).length = tbl.length := by
  intro cs
  induction cs with
  | nil => intro tbl; rfl
  | cons c cs ih =>
    intro tbl
    rw [List.foldl_cons, ih, List.length_set]

/-- One node's writes leave every position outside its child list alone. -/
theorem foldl_set_getD_not_mem (p j : Nat) :
    ∀ (cs : List Nat) (tbl : List Nat), j ∉ cs →
      (cs.foldl (fun tb c => tb.set c p) tbl).getD j 0 = tbl.getD j 0 := by
  intro cs
  induction cs with
  | nil => intro tbl _; rfl
  | cons c cs ih =>
    intro tbl h
    have h' : j ≠ c ∧ j ∉ cs := by simpa using h
    rw [List.foldl_cons, ih _ h'.2]
    simp [List.getD_eq_getElem?_getD, List.getElem?_set_ne (fun hc => h'.1 hc.symm)]

/-- One node's writes set every in-range position of its child list to the
node's index. -/
theorem foldl_set_getD_mem (p j : Nat) :
    ∀ (cs : List Nat) (tbl : List Nat), j ∈ cs → j < tbl.length →
      (cs.foldl (fun tb c => tb.set c p) tbl).getD j 0 = p := by
  intro cs
  induction cs with
  | nil =>
    intro tbl h _
    simp at h
  | cons c cs ih =>
    intro tbl hm hlen
    rw [List.foldl_cons]
    by_cases hj : j ∈ cs
    · exact ih _ hj (by rw [List.length_set]; exact hlen)
    · have hcj : c = j := by
        rcases List.mem_cons.mp hm with h | h
        · exact h.symm
        · exact absurd h hj
      subst hcj
      rw [foldl_set_getD_not_mem _ _ _ _ hj]
      simp [List.getD_eq_getElem?_getD, List.getElem?_set_self, hlen]

/-- The nested table-building fold preserves the table length. -/
theorem tableFold_length (ns : List TreeNode) :
    ∀ (l : List Nat) (tbl : List Nat),
      (l.foldl (fun tb p => (childrenOf ns p).foldl (fun tb2 c => tb2.set c p) tb) tbl).length
        = tbl.length := by
  intro l
  induction l with
  | nil => intro tbl; rfl
  | cons p l ih =>
    intro tbl
    rw [List.foldl_cons, ih, foldl_set_length]

/-- If no processed node lists j as a child, position j is untouched. -/
theorem tableFold_getD_no_writer (ns : List TreeNode) (j : Nat) :
    ∀ (l : List Nat) (tbl : List Nat), (∀ p ∈ l, j ∉ childrenOf ns p) →
      (l.foldl (fun tb p => (childrenOf ns p).foldl (fun tb2 c => tb2.set c p) tb) tbl).getD j 0
        = tbl.getD j 0 := by
  intro l
  induction l with
  | nil => intro tbl _; rfl
  | cons p l ih =>
    intro tbl h
    rw [List.foldl_cons, ih _ (fun p' hp' => h p' (List.mem_cons_of_mem _ hp'))]
    exact foldl_set_getD_not_mem _ _ _ _ (h p (List.mem_cons_self p l))

/-- If exactly the node q among those processed lists j as a child, the
final table holds q at the in-range position j. -/
theorem tableFold_getD_unique_writer (ns : List TreeNode) (j q : Nat) :
    ∀ (l : List Nat) (tbl : List Nat),
      (∀ p ∈ l, j ∈ childrenOf ns p → p = q) →
      (∃ p ∈ l, j ∈ childrenOf ns p) →
      j < tbl.length →
      (l.foldl (fun tb p => (childrenOf ns p).foldl (fun tb2 c => tb2.set c p) tb) tbl).getD j 0
        = q := by
  intro l
  induction l with
  | nil =>
    intro tbl _ hex _
    obtain ⟨p, hp, _⟩ := hex
    simp at hp
  | cons p l ih =>
    intro tbl huniq hex hlen
    rw [List.foldl_cons]
    by_cases hw : j ∈ childrenOf ns p
    · have hpq : p = q := huniq p (List.mem_cons_self p l) hw
      subst hpq
      by_cases hrest : ∃ p' ∈ l, j ∈ childrenOf ns p'
      · exact ih _ (fun p' hp' hm' => huniq p' (List.mem_cons_of_mem _ hp') hm') hrest
          (by rw [foldl_set_length]; exact hlen)
      · rw [tableFold_getD_no_writer ns j l _ (by
          intro p' hp' hm'
          exact hrest ⟨p', hp', hm'⟩)]
        exact foldl_set_getD_mem _ _ _ _ hw hlen
    · have hex' : ∃ p' ∈ l, j ∈ childrenOf ns p' := by
        obtain ⟨p', hp', hm'⟩ := hex
        rcases List.mem_cons.mp hp' with h | h
        · subst h; exact absurd hm' hw
        · exact ⟨p', h, hm'⟩
      refine ih _ (fun p' hp' hm' => huniq p' (List.mem_cons_of_mem _ hp') hm') hex' ?_
      rw [foldl_set_length]
      exact hlen

/-- Under the unique-parent invariant the built table holds, at each child
position, the index of the node listing it. -/
theorem buildTable_getD (ns : List TreeNode) (j q : Nat)
    (hq : q < ns.length) (hmem : j ∈ childrenOf ns q)
    (huniq : ∀ p, p < ns.length → j ∈ childrenOf ns p → p = q)
    (hj : j < ns.length) :
    (buildTable ns).getD j 0 = q := by
  unfold buildTable
  apply tableFold_getD_unique_writer
  · intro p hp hm
    exact huniq p (List.mem_range.mp hp) hm
  · exact ⟨q, List.mem_range.mpr hq, hmem⟩
  · simpa using hj

/-- A valid tree's child lists keep every parent-table write in range, so
the table build cannot fault. -/
theorem tableWritesInRange_of_valid {ns : List TreeNode} (V : TreeValid ns) :
    tableWritesInRange ns = true := by
  unfold tableWritesInRange
  rw [List.all_eq_true]
  intro p hp
  rw [List.all_eq_true]
  intro c hc
  exact decide_eq_true (V.childBound p hp c hc)

/-- Only the root can sit at depth zero: any other in-range node has a
parent and is therefore one deeper than it. -/
theorem depth_zero_eq_root {ns : List TreeNode} (V : TreeValid ns)
    {D : Nat → Nat} (hD : IsDepthFn ns D)
    {x : Nat} (hx : x < ns.length) (h0 : D x = 0) : x = 0 := by
  by_contra hne
  obtain ⟨p, hp, hm⟩ := V.parentEx x (List.mem_range.mpr hx) (Nat.pos_of_ne_zero hne)
  have := hD.2 p hp x hm
  omega

/-- The ancestor climb on a valid tree: with fuel at least the depth of the
start node it terminates, and it returns the parent chain — as long as the
depth, all entries in range and strictly shallower, without duplicates, led
by the unique parent and ended by the root. -/
theorem ancWalk_correct (ns : List TreeNode) (V : TreeValid ns)
    (D : Nat → Nat) (hD : IsDepthFn ns D) :
    ∀ d fuel id, d ≤ fuel → id < ns.length → D id = d →
      ∃ l, ancWalk (buildTable ns) fuel id = some l ∧
        l.length = d ∧
        (∀ x ∈ l, x < ns.length ∧ D x < d) ∧
        l.Nodup ∧
        (0 < d → (∀ p, p < ns.length → id ∈ childrenOf ns p → l.head? = some p) ∧
                 l.getLast? = some 0) := by
  intro d
  induction d with
  | zero =>
    intro fuel id _ hid hD0
    have h0 : id = 0 := depth_zero_eq_root V hD hid hD0
    subst h0
    refine ⟨[], ?_, rfl, by simp, List.nodup_nil, by omega⟩
    cases fuel <;> rfl
  | succ d ih =>
    intro fuel id hf hid hDid
    have hid0 : id ≠ 0 := by
      intro h
      rw [h, hD.1] at hDid
      omega
    obtain ⟨p, hp, hm⟩ := V.parentEx id (List.mem_range.mpr hid) (Nat.pos_of_ne_zero hid0)
    have hp' : p < ns.length := List.mem_range.mp hp
    have hDp : D p = d := by
      have := hD.2 p hp id hm
      omega
    have htbl : (buildTable ns).getD id 0 = p :=
      buildTable_getD ns id p hp' hm
        (fun q hq hmq => V.parentUniq q (List.mem_range.mpr hq) p hp id hmq hm) hid
    obtain ⟨fuel', rfl⟩ : ∃ f, fuel = f + 1 := ⟨fuel - 1, by omega⟩
    obtain ⟨i, rfl⟩ : ∃ i, id = i + 1 := ⟨id - 1, by omega⟩
    obtain ⟨l', hw', hlen', hel', hnd', hlast'⟩ := ih fuel' p (by omega) hp' hDp
    refine ⟨p :: l', ?_, by simp [hlen'], ?_, ?_, ?_⟩
    · simp only [ancWalk, htbl, hw']
    · intro x hx
      rcases List.mem_cons.mp hx with h | h
      · subst h
        exact ⟨hp', by omega⟩
      · obtain ⟨h1, h2⟩ := hel' x h
        exact ⟨h1, by omega⟩
    · refine List.nodup_cons.mpr ⟨?_, hnd'⟩
      intro hmem
      have := (hel' p hmem).2
      omega
    · intro _
      constructor
      · intro q hq hmq
        have hqp : q = p := V.parentUniq q (List.mem_range.mpr hq) p hp (i + 1) hmq hm
        subst hqp
        simp
      · cases d with
        | zero =>
          have hp0 : p = 0 := depth_zero_eq_root V hD hp' hDp
          have hl0 : l' = [] := List.length_eq_zero.mp hlen'
          subst hp0
          subst hl0
          rfl
        | succ d' =>
          obtain ⟨b, l'', rfl⟩ : ∃ b l'', l' = b :: l'' := by
            cases l' with
            | nil => simp at hlen'
            | cons b l'' => exact ⟨b, l'', rfl⟩
          rw [List.getLast?_cons_cons]
          exact (hlast' (by omega)).2

/-- C5: on a valid tree (unique parents, rooted acyclic child relation with
depth assignment D), for every in-bounds NodeID, AncestorIDs succeeds and
returns the chain of proper ancestors: as long as the node's depth, not
containing the node itself, headed by its immediate parent and ended by the
root 0 whenever the node is not itself the root. -/
theorem C5_ancestor_chain (t : Tree) (id : Nat) (D : Nat → Nat)
    (V : TreeValid t.Nodes) (hD : IsDepthFn t.Nodes D) (hid : id < t.Nodes.length) :
    ∃ l, Tree.AncestorIDs (some t) id = .ok l ∧
      l.length = D id ∧
      id ∉ l ∧
      (0 < D id →
        (∀ p, p < t.Nodes.length → id ∈ childrenOf t.Nodes p → l.head? = some p) ∧
        l.getLast? = some 0) := by
  obtain ⟨l0, _, hlen0, hel0, hnd0, _⟩ :=
    ancWalk_correct t.Nodes V D hD (D id) (D id) id le_rfl hid rfl
  have hbound : D id < t.Nodes.length := by
    have hndcons : (id :: l0).Nodup :=
      List.nodup_cons.mpr ⟨fun hmem => absurd (hel0 id hmem).2 (by omega), hnd0⟩
    have hle : (id :: l0).length ≤ t.Nodes.length := by
      calc (id :: l0).length = (id :: l0).toFinset.card :=
            (List.toFinset_card_of_nodup hndcons).symm
        _ ≤ (Finset.range t.Nodes.length).card := by
            apply Finset.card_le_card
            intro x hx
            rw [Finset.mem_range]
            rcases List.mem_cons.mp (List.mem_toFinset.mp hx) with h | h
            · subst h; exact hid
            · exact (hel0 x h).1
        _ = t.Nodes.length := Finset.card_range _
    simp only [List.length_cons, hlen0] at hle
    omega
  obtain ⟨l, hw, hlen, hel, _, hends⟩ :=
    ancWalk_correct t.Nodes V D hD (D id) t.Nodes.length id (by omega) hid rfl
  have h1 : ¬ t.Nodes.length ≤ id := by omega
  refine ⟨l, ?_, hlen, ?_, hends⟩
  · simp [Tree.AncestorIDs, h1, tableWritesInRange_of_valid V, hw]
  · intro hmem
    have := (hel id hmem).2
    omega

theorem C5_witness :
    (TreeValid (Tree.mk [⟨none, [1, 2]⟩, ⟨none, [3]⟩, ⟨none, []⟩, ⟨none, []⟩]).Nodes ∧
     IsDepthFn (Tree.mk [⟨none, [1, 2]⟩, ⟨none, [3]⟩, ⟨none, []⟩, ⟨none, []⟩]).Nodes
       (fun i => [0, 1, 1, 2].getD i 0) ∧
     3 < (Tree.mk [⟨none, [1, 2]⟩, ⟨none, [3]⟩, ⟨none, []⟩, ⟨none, []⟩]).Nodes.length) ∧
    (∃ l, Tree.AncestorIDs (some (Tree.mk [⟨none, [1, 2]⟩, ⟨none, [3]⟩, ⟨none, []⟩, ⟨none, []⟩])) 3
        = .ok l ∧
      l.length = (fun i => [0, 1, 1, 2].getD i 0) 3 ∧
      3 ∉ l ∧
      (0 < (fun i => [0, 1, 1, 2].getD i 0) 3 →
        (∀ p, p < (Tree.mk [⟨none, [1, 2]⟩, ⟨none, [3]⟩, ⟨none, []⟩, ⟨none, []⟩]).Nodes.length →
          3 ∈ childrenOf (Tree.mk [⟨none, [1, 2]⟩, ⟨none, [3]⟩, ⟨none, []⟩, ⟨none, []⟩]).Nodes p →
          l.head? = some p) ∧
        l.getLast? = some 0)) :=
  ⟨⟨⟨by decide, by decide, by decide, by decide, by decide, by decide,
     ⟨fun i => [0, 1, 1, 2].getD i 0, by decide, by decide⟩⟩, ⟨by decide, by decide⟩, by decide⟩,
   C5_ancestor_chain (Tree.mk [⟨none, [1, 2]⟩, ⟨none, [3]⟩, ⟨none, []⟩, ⟨none, []⟩]) 3
     (fun i => [0, 1, 1, 2].getD i 0)
     ⟨by decide, by decide, by decide, by decide, by decide, by decide,
      ⟨fun i => [0, 1, 1, 2].getD i 0, by decide, by decide⟩⟩
     ⟨by decide, by decide⟩ (by decide)⟩

/-! Subtree structure lemmas and the leaf traversal (C6). -/

/-- Subtree members of an in-range root are in range. -/
theorem insub_lt {ns : List TreeNode} (V : TreeValid ns) {r x : Nat}
    (h : InSubtree ns r x) (hr : r < ns.length) : x < ns.length := by
  induction h with
  | refl => exact hr
  | step p c _ hc ih => exact V.childBound p (List.mem_range.mpr ih) c hc

/-- Depth never decreases along subtree membership. -/
theorem insub_depth_le {ns : List TreeNode} (V : TreeValid ns) {D : Nat → Nat}
    (hD : IsDepthFn ns D) {r x : Nat} (h : InSubtree ns r x) (hr : r < ns.length) :
    D r ≤ D x := by
  induction h with
  | refl => exact le_rfl
  | step p c hp hc ih =>
    have hpn : p < ns.length := insub_lt V hp hr
    have := hD.2 p (List.mem_range.mpr hpn) c hc
    omega

/-- Top decomposition: a subtree member is the root or sits in the subtree
of one of the root's children. -/
theorem insub_cases {ns : List TreeNode} {r x : Nat} (h : InSubtree ns r x) :
    r = x ∨ ∃ c ∈ childrenOf ns r, InSubtree ns c x := by
  induction h with
  | refl => exact Or.inl rfl
  | step p c _ hc ih =>
    rcases ih with rfl | ⟨c', hc', hcp⟩
    · exact Or.inr ⟨c, hc, InSubtree.refl⟩
    · exact Or.inr ⟨c', hc', InSubtree.step p c hcp hc⟩

/-- A childless root has a singleton subtree. -/
theorem insub_of_leaf {ns : List TreeNode} {r x : Nat}
    (hleaf : childrenOf ns r = []) (h : InSubtree ns r x) : x = r := by
  rcases insub_cases h with h | ⟨c, hc, _⟩
  · exact h.symm
  · rw [hleaf] at hc
    simp at hc

/-- Bottom decomposition: a proper subtree member arrives through a node
listing it as a child. -/
theorem insub_parent_step {ns : List TreeNode} {r x : Nat} (h : InSubtree ns r x) :
    r = x ∨ ∃ p, InSubtree ns r p ∧ x ∈ childrenOf ns p := by
  cases h with
  | refl => exact Or.inl rfl
  | step p c hp hc => exact Or.inr ⟨p, hp, hc⟩

/-- Subtree membership is transitive. -/
theorem insub_trans {ns : List TreeNode} {a b x : Nat}
    (h1 : InSubtree ns a b) (h2 : InSubtree ns b x) : InSubtree ns a x := by
  induction h2 with
  | refl => exact h1
  | step p c _ hc ih => exact InSubtree.step p c ih hc

/-- Two same-depth roots whose subtrees share a member coincide: the parent
chain above any node is unique, so ancestors at equal depth are equal. -/
theorem insub_same_depth {ns : List TreeNode} (V : TreeValid ns) {D : Nat → Nat}
    (hD : IsDepthFn ns D) :
    ∀ k x r r', D x = k → x < ns.length → r < ns.length → r' < ns.length →
      InSubtree ns r x → InSubtree ns r' x → D r = D r' → r = r' := by
  intro k
  induction k using Nat.strong_induction_on with
  | _ k ih =>
    intro x r r' hk hx hr hr' h1 h2 hDrr
    rcases insub_parent_step h1 with rfl | ⟨p, hrp, hxp⟩
    · rcases insub_parent_step h2 with rfl | ⟨q, hrq, hxq⟩
      · rfl
      · exfalso
        have hq : q < ns.length := insub_lt V hrq hr'
        have hdq := hD.2 q (List.mem_range.mpr hq) r hxq
        have := insub_depth_le V hD hrq hr'
        omega
    · rcases insub_parent_step h2 with rfl | ⟨q, hrq, hxq⟩
      · exfalso
        have hp : p < ns.length := insub_lt V hrp hr
        have hdp := hD.2 p (List.mem_range.mpr hp) r' hxp
        have := insub_depth_le V hD hrp hr
        omega
      · have hpn : p < ns.length := insub_lt V hrp hr
        have hqn : q < ns.length := insub_lt V hrq hr'
        have hpq : p = q :=
          V.parentUniq p (List.mem_range.mpr hpn) q (List.mem_range.mpr hqn) x hxp hxq
        subst hpq
        have hdp := hD.2 p (List.mem_range.mpr hpn) x hxp
        exact ih (D p) (by omega) p r r' rfl hpn hr hr' hrp hrq hDrr

/-- Distinct children of one node have disjoint subtrees. -/
theorem sibling_disjoint {ns : List TreeNode} (V : TreeValid ns) {D : Nat → Nat}
    (hD : IsDepthFn ns D) {p c c' : Nat} (hp : p < ns.length)
    (hc : c ∈ childrenOf ns p) (hc' : c' ∈ childrenOf ns p) (hne : c ≠ c') :
    ∀ x, InSubtree ns c x → InSubtree ns c' x → False := by
  intro x h1 h2
  have hcn : c < ns.length := V.childBound p (List.mem_range.mpr hp) c hc
  have hc'n : c' < ns.length := V.childBound p (List.mem_range.mpr hp) c' hc'
  have hxn : x < ns.length := insub_lt V h1 hcn
  have hdd : D c = D c' := by
    rw [hD.2 p (List.mem_range.mpr hp) c hc, hD.2 p (List.mem_range.mpr hp) c' hc']
  exact hne (insub_same_depth V hD (D x) x c c' rfl hxn hcn hc'n h1 h2 hdd)

/-- A proper subtree member of r sits in the subtree of some child of r. -/
theorem insub_through_child {ns : List TreeNode} {r x : Nat}
    (h : InSubtree ns r x) (hne : x ≠ r) :
    ∃ c ∈ childrenOf ns r, InSubtree ns c x := by
  rcases insub_cases h with h | h
  · exact absurd h.symm hne
  · exact h

/-- The traversal loop of LeafDescendantIDs, verified: as long as pending
holds the not-yet-visited nodes (covering the stacked subtrees, which are
pairwise disjoint) and the fuel covers pending, the loop terminates and
returns exactly the childless members of the stacked subtrees, without
duplicates. -/
theorem dfsLeaves_correct (ns : List TreeNode) (V : TreeValid ns)
    (D : Nat → Nat) (hD : IsDepthFn ns D) :
    ∀ (fuel : Nat) (stack pending : List Nat),
      pending.Nodup →
      (∀ s ∈ stack, s < ns.length) →
      stack.Pairwise (fun a b => ∀ x, InSubtree ns a x → InSubtree ns b x → False) →
      (∀ s ∈ stack, ∀ x, InSubtree ns s x → x ∈ pending) →
      pending.length ≤ fuel →
      ∃ l, dfsLeaves ns fuel stack = .ok l ∧
        (∀ x, x ∈ l ↔ ∃ s ∈ stack, InSubtree ns s x ∧ childrenOf ns x = []) ∧
        l.Nodup := by
  intro fuel
  induction fuel with
  | zero =>
    intro stack pending hpnd hslt hdisj hcov hlen
    cases stack with
    | nil => exact ⟨[], rfl, by simp, List.nodup_nil⟩
    | cons s rest =>
      exfalso
      have hsp : s ∈ pending := hcov s (List.mem_cons_self s rest) s InSubtree.refl
      have h1 : 0 < pending.length := List.length_pos.mpr (List.ne_nil_of_mem hsp)
      omega
  | succ fuel ih =>
    intro stack pending hpnd hslt hdisj hcov hlen
    cases stack with
    | nil => exact ⟨[], rfl, by simp, List.nodup_nil⟩
    | cons nid rest =>
      have hidn : nid < ns.length := hslt nid (List.mem_cons_self nid rest)
      have hnle : ¬ ns.length ≤ nid := by omega
      have hid_pend : nid ∈ pending := hcov nid (List.mem_cons_self nid rest) nid InSubtree.refl
      have hpnd' : (pending.erase nid).Nodup := hpnd.erase nid
      have hlen' : (pending.erase nid).length ≤ fuel := by
        rw [List.length_erase_of_mem hid_pend]
        have h1 : 0 < pending.length := List.length_pos.mpr (List.ne_nil_of_mem hid_pend)
        omega
      have hdisj_head : ∀ b ∈ rest, ∀ x, InSubtree ns nid x → InSubtree ns b x → False :=
        (List.pairwise_cons.mp hdisj).1
      have hdisj_rest := (List.pairwise_cons.mp hdisj).2
      have hcov_rest : ∀ s ∈ rest, ∀ x, InSubtree ns s x → x ∈ pending.erase nid := by
        intro s hs x hx
        have hxp : x ∈ pending := hcov s (List.mem_cons_of_mem _ hs) x hx
        have hxid : x ≠ nid := by
          intro h
          subst h
          exact hdisj_head s hs x InSubtree.refl hx
        exact (List.mem_erase_of_ne hxid).mpr hxp
      by_cases hleaf : (childrenOf ns nid).isEmpty = true
      · have hcs : childrenOf ns nid = [] := List.isEmpty_iff.mp hleaf
        obtain ⟨l', hdfs', hmem', hnd'⟩ := ih rest (pending.erase nid) hpnd'
          (fun s hs => hslt s (List.mem_cons_of_mem _ hs)) hdisj_rest hcov_rest hlen'
        refine ⟨nid :: l', ?_, ?_, ?_⟩
        · simp only [dfsLeaves, if_neg hnle, if_pos hleaf, hdfs']
        · intro x
          constructor
          · intro hx
            rcases List.mem_cons.mp hx with rfl | hx'
            · exact ⟨x, List.mem_cons_self x rest, InSubtree.refl, hcs⟩
            · obtain ⟨s, hs, hsx, hlx⟩ := (hmem' x).mp hx'
              exact ⟨s, List.mem_cons_of_mem _ hs, hsx, hlx⟩
          · rintro ⟨s, hs, hsx, hlx⟩
            rcases List.mem_cons.mp hs with rfl | hs'
            · have hxid : x = s := insub_of_leaf hcs hsx
              subst hxid
              exact List.mem_cons_self _ _
            · exact List.mem_cons_of_mem _ ((hmem' x).mpr ⟨s, hs', hsx, hlx⟩)
        · refine List.nodup_cons.mpr ⟨?_, hnd'⟩
          intro hidl'
          obtain ⟨s, hs, hsx, _⟩ := (hmem' nid).mp hidl'
          exact hdisj_head s hs nid InSubtree.refl hsx
      · have hcsne : childrenOf ns nid ≠ [] := by
          intro h
          rw [h] at hleaf
          exact hleaf rfl
        have hcs_lt : ∀ c ∈ childrenOf ns nid, c < ns.length :=
          fun c hc => V.childBound nid (List.mem_range.mpr hidn) c hc
        have hcs_sub : ∀ c ∈ childrenOf ns nid, ∀ x, InSubtree ns c x → InSubtree ns nid x :=
          fun c hc x hx => insub_trans (InSubtree.step nid c InSubtree.refl hc) hx
        have hpw : ((childrenOf ns nid).reverse ++ rest).Pairwise
            (fun a b => ∀ x, InSubtree ns a x → InSubtree ns b x → False) := by
          apply List.pairwise_append.mpr
          refine ⟨?_, hdisj_rest, ?_⟩
          · rw [List.pairwise_reverse]
            exact (V.childNodup nid (List.mem_range.mpr hidn)).imp_of_mem
              (fun ha hb hne => fun x h1 h2 =>
                sibling_disjoint V hD hidn hb ha (fun h => hne h.symm) x h1 h2)
          · intro a ha b hb x hax hbx
            exact hdisj_head b hb x (hcs_sub a (List.mem_reverse.mp ha) x hax) hbx
        have hcov' : ∀ s ∈ (childrenOf ns nid).reverse ++ rest, ∀ x,
            InSubtree ns s x → x ∈ pending.erase nid := by
          intro s hs x hx
          rcases List.mem_append.mp hs with hsc | hsr
          · have hsc' := List.mem_reverse.mp hsc
            have hxp : x ∈ pending :=
              hcov nid (List.mem_cons_self nid rest) x (hcs_sub s hsc' x hx)
            have hxne : x ≠ nid := by
              intro h
              have h1 : D s = D nid + 1 := hD.2 nid (List.mem_range.mpr hidn) s hsc'
              have h2 : D s ≤ D x := insub_depth_le V hD hx (hcs_lt s hsc')
              rw [h] at h2
              omega
            exact (List.mem_erase_of_ne hxne).mpr hxp
          · exact hcov_rest s hsr x hx
        obtain ⟨l, hdfs', hmem', hnd'⟩ := ih ((childrenOf ns nid).reverse ++ rest)
          (pending.erase nid) hpnd'
          (by
            intro s hs
            rcases List.mem_append.mp hs with hsc | hsr
            · exact hcs_lt s (List.mem_reverse.mp hsc)
            · exact hslt s (List.mem_cons_of_mem _ hsr))
          hpw hcov' hlen'
        refine ⟨l, ?_, ?_, hnd'⟩
        · simp only [dfsLeaves, if_neg hnle, if_neg hleaf, hdfs']
        · intro x
          rw [hmem' x]
          constructor
          · rintro ⟨s, hs, hsx, hlx⟩
            rcases List.mem_append.mp hs with hsc | hsr
            · exact ⟨nid, List.mem_cons_self nid rest,
                hcs_sub s (List.mem_reverse.mp hsc) x hsx, hlx⟩
            · exact ⟨s, List.mem_cons_of_mem _ hsr, hsx, hlx⟩
          · rintro ⟨s, hs, hsx, hlx⟩
            rcases List.mem_cons.mp hs with rfl | hsr
            · have hxne : x ≠ s := by
                intro h
                subst h
                exact hcsne hlx
              obtain ⟨c, hc, hcx⟩ := insub_through_child hsx hxne
              exact ⟨c, List.mem_append_left _ (List.mem_reverse.mpr hc), hcx, hlx⟩
            · exact ⟨s, List.mem_append_right _ hsr, hsx, hlx⟩

/-- C6: on a valid tree, for every in-bounds NodeID, LeafDescendantIDs
succeeds; every returned NodeID has an empty child list and lies in the
subtree rooted at the queried id, and every childless node of that subtree
appears exactly once in the returned list. -/
theorem C6_leaf_descendants (t : Tree) (id : Nat)
    (V : TreeValid t.Nodes) (hid : id < t.Nodes.length) :
    ∃ l, Tree.LeafDescendantIDs (some t) id = .ok l ∧
      (∀ x ∈ l, childrenOf t.Nodes x = []) ∧
      (∀ x ∈ l, InSubtree t.Nodes id x) ∧
      (∀ x, InSubtree t.Nodes id x → childrenOf t.Nodes x = [] → l.count x = 1) := by
  obtain ⟨D, hD⟩ := V.depthEx
  obtain ⟨l, hdfs, hmem, hnd⟩ := dfsLeaves_correct t.Nodes V D hD t.Nodes.length [id]
    (List.range t.Nodes.length)
    (List.nodup_range t.Nodes.length)
    (by
      intro s hs
      rw [List.mem_singleton] at hs
      subst hs
      exact hid)
    (List.pairwise_singleton _ _)
    (by
      intro s hs x hx
      rw [List.mem_singleton] at hs
      subst hs
      rw [List.mem_range]
      exact insub_lt V hx hid)
    (by simp)
  have h1 : ¬ t.Nodes.length ≤ id := by omega
  refine ⟨l, ?_, ?_, ?_, ?_⟩
  · simp [Tree.LeafDescendantIDs, h1, hdfs]
  · intro x hx
    obtain ⟨s, _, _, hlx⟩ := (hmem x).mp hx
    exact hlx
  · intro x hx
    obtain ⟨s, hs, hsx, _⟩ := (hmem x).mp hx
    rw [List.mem_singleton] at hs
    subst hs
    exact hsx
  · intro x hx hlx
    exact List.count_eq_one_of_mem hnd ((hmem x).mpr ⟨id, List.mem_singleton_self id, hx, hlx⟩)

theorem C6_witness :
    (TreeValid (Tree.mk [⟨none, [1, 2]⟩, ⟨none, [3]⟩, ⟨none, []⟩, ⟨none, []⟩]).Nodes ∧
     0 < (Tree.mk [⟨none, [1, 2]⟩, ⟨none, [3]⟩, ⟨none, []⟩, ⟨none, []⟩]).Nodes.length) ∧
    (∃ l, Tree.LeafDescendantIDs
        (some (Tree.mk [⟨none, [1, 2]⟩, ⟨none, [3]⟩, ⟨none, []⟩, ⟨none, []⟩])) 0 = .ok l ∧
      (∀ x ∈ l, childrenOf (Tree.mk [⟨none, [1, 2]⟩, ⟨none, [3]⟩, ⟨none, []⟩, ⟨none, []⟩]).Nodes x
        = []) ∧
      (∀ x ∈ l, InSubtree (Tree.mk [⟨none, [1, 2]⟩, ⟨none, [3]⟩, ⟨none, []⟩, ⟨none, []⟩]).Nodes 0 x) ∧
      (∀ x, InSubtree (Tree.mk [⟨none, [1, 2]⟩, ⟨none, [3]⟩, ⟨none, []⟩, ⟨none, []⟩]).Nodes 0 x →
        childrenOf (Tree.mk [⟨none, [1, 2]⟩, ⟨none, [3]⟩, ⟨none, []⟩, ⟨none, []⟩]).Nodes x = [] →
        l.count x = 1)) :=
  ⟨⟨⟨by decide, by decide, by decide, by decide, by decide, by decide,
     ⟨fun i => [0, 1, 1, 2].getD i 0, by decide, by decide⟩⟩, by decide⟩,
   C6_leaf_descendants (Tree.mk [⟨none, [1, 2]⟩, ⟨none, [3]⟩, ⟨none, []⟩, ⟨none, []⟩]) 0
     ⟨by decide, by decide, by decide, by decide, by decide, by decide,
      ⟨fun i => [0, 1, 1, 2].getD i 0, by decide, by decide⟩⟩
     (by decide)⟩

/-! The codec round trip (C1): first the element level. -/

/-- A successful kind parse never yields the sentinel. -/
theorem parseKind_ne_unknown {s : String} {k : ProcessingKind}
    (h : ParseProcessingKind s = .ok k) : k ≠ .UnknownProcessingKind := by
  unfold ParseProcessingKind at h
  split at h <;> first
    | (injection h with h
       subst h
       decide)
    | exact Except.noConfusion h

/-- A successful level parse never yields the sentinel. -/
theorem parseLevel_ne_unknown {s : String} {lv : CacheLevel}
    (h : ParseCacheLevel s = .ok lv) : lv ≠ .UnknownCacheLevel := by
  unfold ParseCacheLevel at h
  split at h <;> first
    | (injection h with h
       subst h
       decide)
    | exact Except.noConfusion h

/-- Parsing the canonical wire form of a recognised kind recovers it. -/
theorem parseKind_roundtrip {k : ProcessingKind} (h : k ≠ .UnknownProcessingKind) :
    ParseProcessingKind (strToLower k.str) = .ok k := by
  cases k
  · exact absurd rfl h
  all_goals decide

/-- Parsing the canonical wire form of a recognised level recovers it. -/
theorem parseLevel_roundtrip {lv : CacheLevel} (h : lv ≠ .UnknownCacheLevel) :
    ParseCacheLevel lv.str = .ok lv := by
  cases lv
  · exact absurd rfl h
  all_goals decide

theorem uint32Of_lt (n : Int) : uint32Of n < 4294967296 := by
  unfold uint32Of
  omega

theorem uint64Of_lt (n : Int) : uint64Of n < 18446744073709551616 := by
  unfold uint64Of
  omega

theorem int32Of_bounds (n : Int) : -2147483648 ≤ int32Of n ∧ int32Of n < 2147483648 := by
  unfold int32Of
  omega

theorem uint32Of_coe {i : Nat} (h : i < 4294967296) : uint32Of (i : Int) = i := by
  unfold uint32Of
  omega

theorem uint64Of_coe {i : Nat} (h : i < 18446744073709551616) : uint64Of (i : Int) = i := by
  unfold uint64Of
  omega

theorem int32Of_id {w : Int} (h1 : -2147483648 ≤ w) (h2 : w < 2147483648) : int32Of w = w := by
  unfold int32Of
  omega

/-- Whatever the processing branch accepts has a valid shape. -/
theorem decodeProcessingContent_valid {content : JSON} {e : Element}
    (h : decodeProcessingContent content = .ok e) : ValidElement e := by
  unfold decodeProcessingContent at h
  repeat' split at h
  all_goals simp_all
  subst h
  exact Or.inr (Or.inl ⟨_, _, rfl, parseKind_ne_unknown (by assumption), uint32Of_lt _⟩)

/-- Whatever the cache branch accepts has a valid shape. -/
theorem decodeCacheContent_valid {content : JSON} {e : Element}
    (h : decodeCacheContent content = .ok e) : ValidElement e := by
  unfold decodeCacheContent at h
  repeat' split at h
  all_goals simp_all
  subst h
  exact Or.inr (Or.inr ⟨_, _, _, _, _, rfl, parseLevel_ne_unknown (by assumption),
    uint32Of_lt _, uint64Of_lt _, uint32Of_lt _,
    (int32Of_bounds _).1, (int32Of_bounds _).2⟩)

/-- Whatever the generic element decode accepts has a valid shape. -/
theorem elementFromJSON_valid {v : JSON} {e : Element}
    (h : elementFromJSON v = .ok e) : ValidElement e := by
  unfold elementFromJSON at h
  repeat' split at h
  · exact decodeProcessingContent_valid h
  · exact decodeCacheContent_valid h
  all_goals simp_all

/-- Whatever Element.UnmarshalJSON accepts, at the value level, has a valid
shape. -/
theorem unmarshalValue_valid {v : JSON} {e : Element}
    (h : Element.unmarshalValue v = .ok e) : ValidElement e := by
  unfold Element.unmarshalValue at h
  split at h
  · injection h with h
    subst h
    exact Or.inl rfl
  · exact elementFromJSON_valid h

/-- Marshalling a valid element succeeds and unmarshalling the result gives
the element back. -/
theorem element_roundtrip {e : Element} (hv : ValidElement e) :
    ∃ j, Element.MarshalJSON e = .ok j ∧ j ≠ JSON.null ∧
      Element.unmarshalValue j = .ok e := by
  rcases hv with rfl | ⟨k, i, rfl, hk, hi⟩ | ⟨lv, li, sz, ln, ws, rfl, hlv, hli, hsz, hln, hws⟩
  · exact ⟨.str "machine", rfl, by simp, by decide⟩
  · refine ⟨_, rfl, by simp, ?_⟩
    unfold Element.unmarshalValue
    rw [if_neg (by simp [isMachineText])]
    simp [elementFromJSON, decodeProcessingContent, lookupField, Processing.marshal,
      parseKind_roundtrip hk, uint32Of_coe hi]
  · refine ⟨_, rfl, by simp, ?_⟩
    unfold Element.unmarshalValue
    rw [if_neg (by simp [isMachineText])]
    simp [elementFromJSON, decodeCacheContent, lookupField, Cache.marshal,
      CacheAttributes.marshal, parseLevel_roundtrip hlv, uint32Of_coe hli,
      uint64Of_coe hsz, uint32Of_coe hln, int32Of_id hws.1 hws.2]

/-! The codec round trip (C1), node and tree level. -/

/-- Unfolding one step of monadic traversal over Except. -/
theorem mapM_except_cons_iff {α β : Type} (f : α → Except String β) (v : α)
    (vs : List α) (l : List β) :
    (v :: vs).mapM f = .ok l ↔ ∃ b bs, f v = .ok b ∧ vs.mapM f = .ok bs ∧ l = b :: bs := by
  rw [List.mapM_cons]
  constructor
  · intro h
    cases hv : f v with
    | error e =>
      rw [hv] at h
      exact Except.noConfusion h
    | ok b =>
      rw [hv] at h
      cases hvs : vs.mapM f with
      | error e =>
        rw [hvs] at h
        exact Except.noConfusion h
      | ok bs =>
        rw [hvs] at h
        have hl : l = b :: bs := by
          injection h with h
          exact h.symm
        exact ⟨b, bs, rfl, rfl, hl⟩
  · rintro ⟨b, bs, hb, hbs, rfl⟩
    rw [hb, hbs]
    rfl

/-- Everything a successful traversal returns satisfies what the element
decoder guarantees. -/
theorem mapM_except_valid {α β : Type} (f : α → Except String β) (P : β → Prop)
    (hf : ∀ a b, f a = .ok b → P b) :
    ∀ (vs : List α) (l : List β), vs.mapM f = .ok l → ∀ b ∈ l, P b := by
  intro vs
  induction vs with
  | nil =>
    intro l h b hb
    have hl : l = [] := by
      injection h with h
      exact h.symm
    subst hl
    simp at hb
  | cons v vs ih =>
    intro l h b hb
    obtain ⟨b0, bs, hb0, hbs, rfl⟩ := (mapM_except_cons_iff f v vs l).mp h
    rcases List.mem_cons.mp hb with rfl | hb'
    · exact hf v b hb0
    · exact ih bs hbs b hb'

/-- Mapping an encoder and traversing its inverse is the identity. -/
theorem mapM_map_roundtrip {α β : Type} (f : α → Except String β) (g : β → α) :
    ∀ (bs : List β), (∀ b ∈ bs, f (g b) = .ok b) → (bs.map g).mapM f = .ok bs := by
  intro bs
  induction bs with
  | nil => intro _; rfl
  | cons b bs ih =>
    intro h
    rw [List.map_cons]
    exact (mapM_except_cons_iff f _ _ _).mpr
      ⟨b, bs, h b (List.mem_cons_self b bs),
       ih (fun b' hb' => h b' (List.mem_cons_of_mem _ hb')), rfl⟩

/-- Pointwise encode-then-decode inverses lift to monadic traversals. -/
theorem mapM_enc_dec {α β : Type} (enc : β → Except String α) (dec : α → Except String β) :
    ∀ (bs : List β), (∀ b ∈ bs, ∃ a, enc b = .ok a ∧ dec a = .ok b) →
      ∃ l, bs.mapM enc = .ok l ∧ l.mapM dec = .ok bs := by
  intro bs
  induction bs with
  | nil => intro _; exact ⟨[], rfl, rfl⟩
  | cons b bs ih =>
    intro h
    obtain ⟨a, ha, hd⟩ := h b (List.mem_cons_self b bs)
    obtain ⟨l, hl, hdl⟩ := ih (fun b' hb' => h b' (List.mem_cons_of_mem _ hb'))
    exact ⟨a :: l, (mapM_except_cons_iff _ _ _ _).mpr ⟨a, l, ha, hl, rfl⟩,
           (mapM_except_cons_iff _ _ _ _).mpr ⟨b, bs, hd, hdl, rfl⟩⟩

/-- A decoded NodeID is inside the uint32 width. -/
theorem decodeNodeID_valid {v : JSON} {c : Nat} (h : decodeNodeID v = .ok c) :
    c < 4294967296 := by
  unfold decodeNodeID at h
  repeat' split at h
  all_goals first
    | exact Except.noConfusion h
    | (injection h with h; omega)

/-- An in-range NodeID decodes from its own encoding. -/
theorem decodeNodeID_roundtrip {c : Nat} (hc : c < 4294967296) :
    decodeNodeID (.num (Int.ofNat c)) = .ok c := by
  simp [decodeNodeID, hc]

/-- Inverting the option map a successful element decode went through. -/
theorem map_some_ok {x : Except String Element} {d : Option Element}
    (h : x.map some = .ok d) : ∃ e0, x = .ok e0 ∧ d = some e0 := by
  cases x with
  | error e => exact Except.noConfusion h
  | ok e0 =>
    refine ⟨e0, rfl, ?_⟩
    injection h with h
    exact h.symm

/-- A decoded data field is a valid element when present. -/
theorem decodeData_valid {ov : Option JSON} {d : Option Element}
    (h : decodeData ov = .ok d) : ∀ e, d = some e → ValidElement e := by
  cases ov with
  | none =>
    intro e he
    injection h with h
    subst h
    exact Option.noConfusion he
  | some dv =>
    unfold decodeData at h
    cases dv <;>
      first
        | (intro e he
           injection h with h
           subst h
           exact Option.noConfusion he)
        | (obtain ⟨e0, hu, rfl⟩ := map_some_ok h
           intro e he
           injection he with he
           subst he
           exact unmarshalValue_valid hu)

/-- Decoded children are inside the NodeID width. -/
theorem decodeChildren_valid {ov : Option JSON} {cs : List Nat}
    (h : decodeChildren ov = .ok cs) : ∀ c ∈ cs, c < 4294967296 := by
  cases ov with
  | none =>
    injection h with h
    subst h
    simp
  | some v =>
    unfold decodeChildren at h
    cases v with
    | null =>
      injection h with h
      subst h
      simp
    | arr vs =>
      exact mapM_except_valid decodeNodeID _ (fun v c hc => decodeNodeID_valid hc) vs cs h
    | str s => exact Except.noConfusion h
    | num n => exact Except.noConfusion h
    | obj fs => exact Except.noConfusion h
    | boolean b => exact Except.noConfusion h

/-- A decoded TreeNode has a valid shape. -/
theorem decodeTreeNode_valid {v : JSON} {tn : TreeNode}
    (h : decodeTreeNode v = .ok tn) : ValidTreeNode tn := by
  unfold decodeTreeNode at h
  split at h
  · injection h with h
    subst h
    exact ⟨fun e he => Option.noConfusion he, by simp⟩
  · rename_i fields
    cases hd : decodeData (lookupField fields "data") with
    | error e =>
      rw [hd] at h
      exact Except.noConfusion h
    | ok d =>
      rw [hd] at h
      cases hc : decodeChildren (lookupField fields "desc") with
      | error e =>
        rw [hc] at h
        exact Except.noConfusion h
      | ok cs =>
        rw [hc] at h
        injection h with h
        subst h
        exact ⟨decodeData_valid hd, decodeChildren_valid hc⟩
  all_goals exact Except.noConfusion h

/-- Encoding a valid TreeNode succeeds and its decode returns the node. -/
theorem treeNode_roundtrip {tn : TreeNode} (hv : ValidTreeNode tn) :
    ∃ j, encodeTreeNode tn = .ok j ∧ decodeTreeNode j = .ok tn := by
  obtain ⟨hdata, hch⟩ := hv
  obtain ⟨dj, hdj, hdec⟩ : ∃ dj,
      (match tn.Data with
       | none => Except.ok JSON.null
       | some e => e.MarshalJSON) = .ok dj ∧ decodeData (some dj) = .ok tn.Data := by
    cases htn : tn.Data with
    | none => exact ⟨.null, rfl, rfl⟩
    | some e =>
      obtain ⟨j, hj, hnn, hu⟩ := element_roundtrip (hdata e htn)
      refine ⟨j, hj, ?_⟩
      cases j with
      | null => exact absurd rfl hnn
      | str s => simp [decodeData, hu, Except.map]
      | num n => simp [decodeData, hu, Except.map]
      | obj fs => simp [decodeData, hu, Except.map]
      | arr es => simp [decodeData, hu, Except.map]
      | boolean b => simp [decodeData, hu, Except.map]
  have hcrt : decodeChildren (some (encodeChildren tn.Children)) = .ok tn.Children := by
    unfold encodeChildren
    show (tn.Children.map (fun c => JSON.num (Int.ofNat c))).mapM decodeNodeID = .ok tn.Children
    exact mapM_map_roundtrip decodeNodeID _ tn.Children
      (fun c hc => decodeNodeID_roundtrip (hch c hc))
  refine ⟨.obj (("data", dj) ::
      (if tn.Children.isEmpty then [] else [("desc", encodeChildren tn.Children)])), ?_, ?_⟩
  · unfold encodeTreeNode
    rw [hdj]
  · by_cases hemp : tn.Children.isEmpty
    · have hce : tn.Children = [] := List.isEmpty_iff.mp hemp
      rw [if_pos hemp]
      simp only [decodeTreeNode]
      rw [show lookupField [("data", dj)] "data" = some dj from by simp [lookupField]]
      rw [show lookupField [("data", dj)] "desc" = none from by simp [lookupField]]
      rw [hdec]
      show (match decodeChildren none with
            | .error e => Except.error e
            | .ok cs => Except.ok ({ Data := tn.Data, Children := cs } : TreeNode)) = _
      rw [show decodeChildren none = .ok [] from rfl, ← hce]
    · rw [if_neg hemp]
      simp only [decodeTreeNode]
      rw [show lookupField [("data", dj), ("desc", encodeChildren tn.Children)] "data"
            = some dj from by simp [lookupField]]
      rw [show lookupField [("data", dj), ("desc", encodeChildren tn.Children)] "desc"
            = some (encodeChildren tn.Children) from by simp [lookupField]]
      rw [hdec]
      show (match decodeChildren (some (encodeChildren tn.Children)) with
            | .error e => Except.error e
            | .ok cs => Except.ok ({ Data := tn.Data, Children := cs } : TreeNode)) = _
      rw [hcrt]

/-- Every node of a decoded Tree has a valid shape. -/
theorem decodeTree_valid {v : JSON} {tr : Tree} (h : decodeTree v = .ok tr) :
    ∀ tn ∈ tr.Nodes, ValidTreeNode tn := by
  unfold decodeTree at h
  repeat' split at h
  · injection h with h
    subst h
    simp
  · injection h with h
    subst h
    simp
  · injection h with h
    subst h
    simp
  · rename_i vs _
    cases hm : vs.mapM decodeTreeNode with
    | error e =>
      rw [hm] at h
      exact Except.noConfusion h
    | ok l =>
      rw [hm] at h
      injection h with h
      subst h
      exact mapM_except_valid decodeTreeNode _ (fun v' tn htn => decodeTreeNode_valid htn) vs l hm
  · exact Except.noConfusion h
  · exact Except.noConfusion h

/-- C1: for every Topology obtained by successfully decoding a document,
encoding it succeeds and decoding the result yields a structurally equal
Topology — the same node count, the same element at every NodeID and the
same child lists in order, here plain equality of the model values. -/
theorem C1_round_trip (d : JSON) (t : Topology)
    (h : Topology.UnmarshalJSON d = .ok t) :
    ∃ j, Topology.MarshalJSON t = .ok j ∧ Topology.UnmarshalJSON j = .ok t := by
  unfold Topology.UnmarshalJSON at h
  split at h
  · injection h with h
    subst h
    exact ⟨.null, rfl, rfl⟩
  · cases hd : decodeTree d with
    | error e =>
      rw [hd] at h
      exact Except.noConfusion h
    | ok tr =>
      rw [hd] at h
      injection h with h
      subst h
      obtain ⟨js, hjs, hdec⟩ := mapM_enc_dec encodeTreeNode decodeTreeNode tr.Nodes
        (fun tn htn => treeNode_roundtrip (decodeTree_valid hd tn htn))
      refine ⟨.obj [("nodes", .arr js)], ?_, ?_⟩
      · show encodeTree tr = _
        unfold encodeTree
        rw [hjs]
        rfl
      · show (decodeTree (.obj [("nodes", .arr js)])).map (fun tr => ({ Tree := some tr } : Topology))
          = Except.ok ({ Tree := some tr } : Topology)
        have hres : decodeTree (.obj [("nodes", .arr js)]) = .ok tr := by
          have hlk : lookupField [("nodes", .arr js)] "nodes" = some (.arr js) := by
            simp [lookupField]
          simp only [decodeTree]
          rw [hlk]
          show Except.map Tree.mk (js.mapM decodeTreeNode) = .ok tr
          rw [hdec]
          rfl
        rw [hres]
        rfl

theorem C1_witness :
    Topology.UnmarshalJSON (.obj [("nodes", .arr [.obj [("data", .str "machine")]])])
      = .ok { Tree := some { Nodes := [{ Data := some { Processing := none, Cache := none },
                                         Children := [] }] } } ∧
    (∃ j, Topology.MarshalJSON
        { Tree := some { Nodes := [{ Data := some { Processing := none, Cache := none },
                                     Children := [] }] } } = .ok j ∧
      Topology.UnmarshalJSON j
        = .ok { Tree := some { Nodes := [{ Data := some { Processing := none, Cache := none },
                                           Children := [] }] } }) :=
  ⟨by decide,
   C1_round_trip (.obj [("nodes", .arr [.obj [("data", .str "machine")]])])
     { Tree := some { Nodes := [{ Data := some { Processing := none, Cache := none },
                                  Children := [] }] } } (by decide)⟩

end Actitopo
